import Mathlib

/-!
Verification development for the AccountBalancing CLI (src/main.cpp).

The C++ program keeps a `Book` with an `unordered_set<string>` of users and a
`vector<Expense>` of expenses; an `Expense` has a payer, an amount and a
`map<string,double>` of shares.  We embed it shallowly:

  * `double` becomes `ℚ` (exact arithmetic over the same operations the code
    performs; the epsilon constants `EPS = 1e-6`, the clamp threshold `1e-9`
    and the share tolerance `0.01` are taken literally from the source).
  * `std::map<string,double>` becomes a key-sorted association list
    `List (String × ℚ)`; `m[k] += v` is `mapAdd`, `m[k] = v` is `mapSet`.
  * `unordered_set<string>` becomes a duplicate-free `List String` with
    insertion order (iteration order of the set is unspecified in C++; all
    order-sensitive results go through the sorted `std::map` anyway).
  * methods that mutate `Book` and return `bool` with an `err` out-parameter
    become functions returning `Book × Option Err` (the returned book is the
    post-call state; `none` means success).
  * `addExpenseExact` calls `stod` without a try/catch, so a token whose part
    after the colon does not parse as a number throws an uncaught
    `std::invalid_argument` and the process dies; we model that outcome as
    `none` in `Option (Book × Option Err)`.
  * file contents are `List Char`; `save` is pure serialization, `load`
    consumes a character stream.  `load` can hang (its user-line loop
    decrements the index on an empty line, which loops forever at EOF), so
    its result type has an explicit `hang` outcome.
-/

set_option maxRecDepth 8000

namespace AccountBalancing

/-- Error taxonomy of the program; each constructor corresponds to one
`err = ...; return false;` site in src/main.cpp, with the data that the
message interpolates. -/
inductive Err where
  | unknownPayer (p : String)
  | noParticipants
  | unknownParticipant (p : String)
  | noShares
  | badToken (t : String)
  | shareMismatch (sum amount : ℚ)
  | corruptUsers
  | corruptExpenses
  | corruptHeader
  | corruptSharesTag
  | corruptShareEntry
  deriving DecidableEq

/-- EPS = 1e-6 from the source. -/
def EPS : ℚ := 1 / 1000000

/-- Clamp threshold 1e-9 used by computeNet. -/
def CLAMP : ℚ := 1 / 1000000000

/-- Share-sum tolerance 0.01 used by addExpenseExact. -/
def TOL : ℚ := 1 / 100

/-- Model of `std::map<string,double>::operator[] +=`: add `v` to the entry of
`k` (default 0), keeping the list sorted by key. -/
def mapAdd : List (String × ℚ) → String → ℚ → List (String × ℚ)
  | [], k, v => [(k, v)]
  | (a, b) :: t, k, v =>
    if k < a then (k, v) :: (a, b) :: t
    else if k = a then (a, b + v) :: t
    else (a, b) :: mapAdd t k v

/-- Model of `m[k] = v`: set the entry of `k`, keeping the list sorted. -/
def mapSet : List (String × ℚ) → String → ℚ → List (String × ℚ)
  | [], k, v => [(k, v)]
  | (a, b) :: t, k, v =>
    if k < a then (k, v) :: (a, b) :: t
    else if k = a then (a, v) :: t
    else (a, b) :: mapSet t k v

/-- Lookup in the association list. -/
def mapFind : List (String × ℚ) → String → Option ℚ
  | [], _ => none
  | (a, b) :: t, k => if k = a then some b else mapFind t k

/-- Lookup with default 0, matching what `operator[]` observes. -/
def findD (m : List (String × ℚ)) (k : String) : ℚ := (mapFind m k).getD 0

/-- Sum of the values of a map (used for share sums and conservation). -/
def sumValues : List (String × ℚ) → ℚ
  | [] => 0
  | p :: t => p.2 + sumValues t

/-- Expense record, as in the source: payer, amount, share map. -/
structure Expense where
  payer : String
  amount : ℚ
  shares : List (String × ℚ)
  deriving DecidableEq

/-- The ledger: user set and ordered expense sequence. -/
structure Book where
  users : List String
  expenses : List Expense
  deriving DecidableEq

/-- Membership test `users.count(u) != 0`. -/
def hasUser (b : Book) (u : String) : Bool := b.users.contains u

/-- Idempotent user registration (`users.insert(u)`). -/
def addUser (b : Book) (u : String) : Book :=
  if hasUser b u then b else ⟨b.users ++ [u], b.expenses⟩

/-- Equal-split expense: validates payer, non-emptiness and each participant,
then accumulates `amount / participants.size()` per occurrence. -/
def addExpenseEqual (b : Book) (payer : String) (amount : ℚ)
    (participants : List String) : Book × Option Err :=
  if ¬ hasUser b payer then (b, some (.unknownPayer payer))
  else if participants.isEmpty then (b, some .noParticipants)
  else match participants.find? (fun p => ¬ hasUser b p) with
    | some p => (b, some (.unknownParticipant p))
    | none =>
      let share := amount / (participants.length : ℚ)
      let shares := participants.foldl (fun m p => mapAdd m p share) []
      (⟨b.users, b.expenses ++ [⟨payer, amount, shares⟩]⟩, none)

/-- Whitespace test used by stream extraction and by `stod`. -/
def isWs (c : Char) : Bool := c = ' ' ∨ c = '\t' ∨ c = '\n' ∨ c = '\r'

/-- Numeric value of a digit character. -/
def digitVal (c : Char) : ℕ := c.toNat - 48

/-- Value of a digit list read most-significant first. -/
def natOfDigits : List Char → ℕ
  | [] => 0
  | c :: t => natOfDigits t + digitVal c * 10 ^ t.length

/-- Model of `stod` restricted to the decimal grammar the program relies on:
optional leading whitespace, optional sign, digits with an optional fractional
part; trailing characters are ignored (as `stod` ignores them); `none` models
the `std::invalid_argument` thrown when no digits can be consumed. -/
def stodQ (s : String) : Option ℚ :=
  let l := s.toList.dropWhile isWs
  let sign : Bool := match l with | '-' :: _ => true | _ => false
  let l₁ := match l with
    | '-' :: r => r
    | '+' :: r => r
    | _ => l
  let ds := l₁.takeWhile Char.isDigit
  let r₁ := l₁.dropWhile Char.isDigit
  let fs := match r₁ with
    | '.' :: r₂ => r₂.takeWhile Char.isDigit
    | _ => []
  if ds.isEmpty ∧ fs.isEmpty then none
  else
    let v : ℚ := (natOfDigits ds : ℚ) + (natOfDigits fs : ℚ) / 10 ^ fs.length
    some (if sign then -v else v)

/-- Split a token at its first colon (`t.find(':')`); `none` models
`string::npos`. -/
def splitColon (t : String) : Option (String × String) :=
  let l := t.toList
  if (l.dropWhile (fun c => ¬ c = ':')).isEmpty then none
  else some (String.mk (l.takeWhile (fun c => ¬ c = ':')),
             String.mk (l.dropWhile (fun c => ¬ c = ':')).tail)

/-- Token-processing loop of addExpenseExact: builds the share map and the
running share sum; result `none` is the uncaught `stod` exception. -/
def parseTokens (b : Book) : List String → List (String × ℚ) → ℚ →
    Option (Except Err (List (String × ℚ) × ℚ))
  | [], shares, s => some (.ok (shares, s))
  | t :: ts, shares, s =>
    match splitColon t with
    | none => some (.error (.badToken t))
    | some (name, amtStr) =>
      match stodQ amtStr with
      | none => none
      | some v =>
        if ¬ hasUser b name then some (.error (.unknownParticipant name))
        else parseTokens b ts (mapAdd shares name v) (s + v)

/-- Exact-split expense.  `none` models the process dying on an uncaught
`std::invalid_argument` from `stod`; `some (b, some e)` is a validation
failure; `some (b, none)` is success with the expense appended. -/
def addExpenseExact (b : Book) (payer : String) (amount : ℚ)
    (tokens : List String) : Option (Book × Option Err) :=
  if ¬ hasUser b payer then some (b, some (.unknownPayer payer))
  else if tokens.isEmpty then some (b, some .noShares)
  else match parseTokens b tokens [] 0 with
    | none => none
    | some (.error e) => some (b, some e)
    | some (.ok (shares, sumShares)) =>
      if |sumShares - amount| > TOL then
        some (b, some (.shareMismatch sumShares amount))
      else
        (some (⟨b.users, b.expenses ++ [⟨payer, amount, shares⟩]⟩, none))

/-- Effect of one expense on the net map: credit the payer the amount, debit
each participant their share. -/
def applyExpense (m : List (String × ℚ)) (e : Expense) : List (String × ℚ) :=
  e.shares.foldl (fun m p => mapAdd m p.1 (-p.2)) (mapAdd m e.payer e.amount)

/-- Snap values with absolute value below 1e-9 to zero. -/
def clampMap (m : List (String × ℚ)) : List (String × ℚ) :=
  m.map (fun p => (p.1, if |p.2| < CLAMP then 0 else p.2))

/-- Net balance per user: initialize every user to 0, fold the expenses,
clamp tiny noise. -/
def computeNet (b : Book) : List (String × ℚ) :=
  clampMap (b.expenses.foldl applyExpense (b.users.foldl (fun m u => mapSet m u 0) []))

/-- A heap node: user name and (signed) amount. -/
abbrev Node := String × ℚ

/-- A settlement transaction `(from, to, amount)`. -/
abbrev Txn := String × String × ℚ

/-- Extraction from the creditor priority queue: removes a node of maximal
amount (ties resolved arbitrarily by the heap in C++; here: first maximal). -/
def popMaxC : List Node → Option (Node × List Node)
  | [] => none
  | x :: xs =>
    match popMaxC xs with
    | none => some (x, [])
    | some (y, ys) => if y.2 > x.2 then some (y, x :: ys) else some (x, xs)

/-- Extraction from the debtor priority queue: removes a node of minimal
(most negative) amount. -/
def popMaxD : List Node → Option (Node × List Node)
  | [] => none
  | x :: xs =>
    match popMaxD xs with
    | none => some (x, [])
    | some (y, ys) => if y.2 < x.2 then some (y, x :: ys) else some (x, xs)

/-- One iteration of the settlement loop: pop the top creditor and debtor,
emit a transaction when the payment exceeds EPS, reinsert residuals that are
still beyond EPS.  `none` when either queue is empty (loop exit). -/
def settleStep (C D : List Node) : Option (List Txn × List Node × List Node) :=
  match popMaxC C, popMaxD D with
  | some (c, C₁), some (d, D₁) =>
    let pay := min c.2 (-d.2)
    let ts := if pay > EPS then [(d.1, c.1, pay)] else []
    let C₂ := if c.2 - pay > EPS then (c.1, c.2 - pay) :: C₁ else C₁
    let D₂ := if d.2 + pay < -EPS then (d.1, d.2 + pay) :: D₁ else D₁
    some (ts, C₂, D₂)
  | _, _ => none

/-- The settlement while-loop, fueled; `settle` supplies fuel that theorem
`C9_settle_terminates` proves sufficient. -/
def settleLoop : ℕ → List Node → List Node → List Txn
  | 0, _, _ => []
  | f + 1, C, D =>
    match settleStep C D with
    | none => []
    | some (ts, C₁, D₁) => ts ++ settleLoop f C₁ D₁

/-- Greedy min-cash-flow settlement over the net balances. -/
def settle (b : Book) : List Txn :=
  let net := computeNet b
  let cred := net.filter (fun p => p.2 > EPS)
  let debt := net.filter (fun p => p.2 < -EPS)
  settleLoop (cred.length + debt.length) cred debt

/-- Signed effect of the transaction list on a user, oriented as the code
performs it: amounts received (as `to`) minus amounts paid (as `from`). -/
def delta : List Txn → String → ℚ
  | [], _ => 0
  | t :: ts, u =>
    (if t.2.1 = u then t.2.2 else 0) - (if t.1 = u then t.2.2 else 0) + delta ts u

/-- Ledger states reachable through the public mutating operations
(registration and the two expense constructors). -/
inductive Reachable : Book → Prop where
  | empty : Reachable ⟨[], []⟩
  | user (b : Book) (u : String) : Reachable b → Reachable (addUser b u)
  | equalSplit (b b' : Book) (p : String) (a : ℚ) (ps : List String) :
      Reachable b → addExpenseEqual b p a ps = (b', none) → Reachable b'
  | exactSplit (b b' : Book) (p : String) (a : ℚ) (ts : List String) :
      Reachable b → addExpenseExact b p a ts = some (b', none) → Reachable b'

/-! ### Persistence: serialization and the character-stream reader -/

/-- Decimal digits of a natural number, most significant first; the fuel
argument makes the recursion structural, and `natDigs` supplies enough. -/
def natDigsF : ℕ → ℕ → List Char
  | 0, _ => []
  | f + 1, n =>
    if n < 10 then [Char.ofNat (48 + n)]
    else natDigsF f (n / 10) ++ [Char.ofNat (48 + n % 10)]

/-- Decimal digits of a natural number (what `operator<<` prints). -/
def natDigs (n : ℕ) : List Char := natDigsF (n + 1) n

/-- Fixed two-decimal rendering of an amount, as `setprecision(2)` with
`std::ios::fixed` prints it; rounding to the nearest cent coincides with the
C++ output on every amount that is an exact multiple of 0.01 (the case the
round-trip theorem is about) and on the third-decimal truncations exercised
by the counterexample. -/
def fmt2 (q : ℚ) : List Char :=
  let c : ℤ := round (q * 100)
  let m : ℕ := c.natAbs
  (if c < 0 then ['-'] else []) ++ natDigs (m / 100) ++ ['.'] ++
    (if m % 100 < 10 then ['0'] else []) ++ natDigs (m % 100)

/-- Serialized form of the user block: one name per line. -/
def encodeUsers (us : List String) : List Char :=
  us.flatMap (fun u => u.toList ++ ['\n'])

/-- Serialized form of one expense: header line, share count, share lines. -/
def encodeExpense (e : Expense) : List Char :=
  "PAYER ".toList ++ e.payer.toList ++ " AMT ".toList ++ fmt2 e.amount ++ ['\n'] ++
  "SHARES ".toList ++ natDigs e.shares.length ++ ['\n'] ++
  e.shares.flatMap (fun p => p.1.toList ++ [' '] ++ fmt2 p.2 ++ ['\n'])

/-- The text format written by `Book::save` (the file-open failure is an
environment condition outside the model; `save` itself never mutates the
book). -/
def save (b : Book) : List Char :=
  "USERS ".toList ++ natDigs b.users.length ++ ['\n'] ++ encodeUsers b.users ++
  "EXPENSES ".toList ++ natDigs b.expenses.length ++ ['\n'] ++
  b.expenses.flatMap encodeExpense

/-- Drop leading stream whitespace, as formatted extraction does. -/
def skipWs (cs : List Char) : List Char := cs.dropWhile isWs

/-- Model of `in >> string`: skip whitespace, take a maximal non-whitespace
token; `none` models extraction failure (end of stream). -/
def readTok (cs : List Char) : Option (String × List Char) :=
  let cs₁ := skipWs cs
  let t := cs₁.takeWhile (fun c => ¬ isWs c)
  if t.isEmpty then none else some (String.mk t, cs₁.dropWhile (fun c => ¬ isWs c))

/-- Model of `in >> size_t`: skip whitespace, consume a maximal digit run. -/
def readNat (cs : List Char) : Option (ℕ × List Char) :=
  let cs₁ := skipWs cs
  let ds := cs₁.takeWhile Char.isDigit
  if ds.isEmpty then none
  else some (natOfDigits ds, cs₁.dropWhile Char.isDigit)

/-- Model of `in >> double` on the decimal grammar the saved files use:
optional sign, digits, optional fractional part. -/
def readQ (cs : List Char) : Option (ℚ × List Char) :=
  let cs₁ := skipWs cs
  let sign : Bool := cs₁.head? = some '-'
  let cs₂ := if cs₁.head? = some '-' ∨ cs₁.head? = some '+' then cs₁.tail else cs₁
  let ds := cs₂.takeWhile Char.isDigit
  let r₁ := cs₂.dropWhile Char.isDigit
  let fs := if r₁.head? = some '.' then r₁.tail.takeWhile Char.isDigit else []
  let rest := if r₁.head? = some '.' then r₁.tail.dropWhile Char.isDigit else r₁
  if ds.isEmpty ∧ fs.isEmpty then none
  else
    let v : ℚ := (natOfDigits ds : ℚ) + (natOfDigits fs : ℚ) / 10 ^ fs.length
    some ((if sign then -v else v), rest)

/-- Model of `getline`: fails at end of stream, otherwise yields the text up
to (and consuming) the next newline. -/
def getline (cs : List Char) : Option (String × List Char) :=
  match cs with
  | [] => none
  | _ =>
    some (String.mk (cs.takeWhile (fun c => ¬ c = '\n')),
          (cs.dropWhile (fun c => ¬ c = '\n')).tail)

/-- Model of `in.ignore(max, newline)`. -/
def ignoreLine (cs : List Char) : List Char :=
  (cs.dropWhile (fun c => ¬ c = '\n')).tail

/-- The user-line loop of `Book::load`: reads until `n` non-empty lines have
been inserted.  The C++ loop decrements its index on every empty line, so at
end of stream (where `getline` keeps failing with an empty string) it spins
forever; `none` models that divergence.  One character is consumed whenever
`getline` succeeds, so `fuel` larger than the stream length is never
exhausted. -/
def readUsers : ℕ → ℕ → List Char → List String → Option (List String × List Char)
  | _, 0, cs, acc => some (acc, cs)
  | 0, _ + 1, _, _ => none
  | f + 1, n + 1, cs, acc =>
    match getline cs with
    | none => none
    | some (u, cs') =>
      if u = "" then readUsers f (n + 1) cs' acc
      else readUsers f n cs' (if acc.contains u then acc else acc ++ [u])

/-- The inner share-line loop of `Book::load`; shares are assigned
(`e.shares[name] = s`), not accumulated. -/
def readShares : ℕ → List Char → List (String × ℚ) →
    Except Err (List (String × ℚ) × List Char)
  | 0, cs, acc => .ok (acc, cs)
  | k + 1, cs, acc =>
    match readTok cs with
    | none => .error .corruptShareEntry
    | some (name, cs₁) =>
      match readQ cs₁ with
      | none => .error .corruptShareEntry
      | some (s, cs₂) => readShares k cs₂ (mapSet acc name s)

/-- The expense loop of `Book::load`; on error the already-parsed expenses
remain in the partially rebuilt book. -/
def readExpenses : ℕ → List Char → List Expense →
    List Expense × Option Err × List Char
  | 0, cs, acc => (acc, none, cs)
  | m + 1, cs, acc =>
    match readTok cs with
    | none => (acc, some .corruptHeader, cs)
    | some (tag1, cs₁) =>
      match readTok cs₁ with
      | none => (acc, some .corruptHeader, cs₁)
      | some (payer, cs₂) =>
        match readTok cs₂ with
        | none => (acc, some .corruptHeader, cs₂)
        | some (tag2, cs₃) =>
          match readQ cs₃ with
          | none => (acc, some .corruptHeader, cs₃)
          | some (amt, cs₄) =>
            if ¬ (tag1 = "PAYER" ∧ tag2 = "AMT") then (acc, some .corruptHeader, cs₄)
            else
              match readTok cs₄ with
              | none => (acc, some .corruptSharesTag, cs₄)
              | some (tag3, cs₅) =>
                match readNat cs₅ with
                | none => (acc, some .corruptSharesTag, cs₅)
                | some (k, cs₆) =>
                  if ¬ tag3 = "SHARES" then (acc, some .corruptSharesTag, cs₆)
                  else
                    match readShares k cs₆ [] with
                    | .error e => (acc, some e, cs₆)
                    | .ok (sh, cs₇) =>
                      readExpenses m cs₇ (acc ++ [⟨payer, amt, sh⟩])

/-- Outcome of `Book::load`: the rebuilt (possibly partial) book together
with the error, or divergence of the user-line loop. -/
inductive LoadResult where
  | done (b : Book) (e : Option Err)
  | hang
  deriving DecidableEq

/-- Model of `Book::load`: clears the book, then parses; every failure
returns the partially rebuilt state reached so far (the old book is gone). -/
def load (_b : Book) (cs : List Char) : LoadResult :=
  match readTok cs with
  | none => .done ⟨[], []⟩ (some .corruptUsers)
  | some (tag, cs₁) =>
    match readNat cs₁ with
    | none => .done ⟨[], []⟩ (some .corruptUsers)
    | some (n, cs₂) =>
      if ¬ tag = "USERS" then .done ⟨[], []⟩ (some .corruptUsers)
      else
        match readUsers (cs₂.length + 1) n (ignoreLine cs₂) [] with
        | none => .hang
        | some (us, cs₃) =>
          match readTok cs₃ with
          | none => .done ⟨us, []⟩ (some .corruptExpenses)
          | some (tagE, cs₄) =>
            match readNat cs₄ with
            | none => .done ⟨us, []⟩ (some .corruptExpenses)
            | some (m, cs₅) =>
              if ¬ tagE = "EXPENSES" then .done ⟨us, []⟩ (some .corruptExpenses)
              else
                match readExpenses m cs₅ [] with
                | (es, some e, _) => .done ⟨us, es⟩ (some e)
                | (es, none, _) => .done ⟨us, es⟩ none

/-! ### Concrete example ledgers used by counterexamples and witnesses -/

/-- Two registered users. -/
def bAB : Book := addUser (addUser ⟨[], []⟩ "A") "B"

/-- After an equal-split expense: A paid 10, owed entirely by B. -/
def bEq10 : Book := (addExpenseEqual bAB "A" 10 ["B"]).1

/-- Three users with a 10-unit equal split across all three; the shares are
10/3 each, which is not representable in two decimals. -/
def bThirds : Book :=
  (addExpenseEqual (addUser bAB "C") "A" 10 ["A", "B", "C"]).1

/-- The loaded image of bThirds: every 10/3 became 3.33. -/
def bThirdsLoaded : Book :=
  ⟨["A", "B", "C"],
   [⟨"A", 10, [("A", 333 / 100), ("B", 333 / 100), ("C", 333 / 100)]⟩]⟩

/-- A name the text format can round-trip: non-empty and free of the
whitespace that stream extraction and getline treat as delimiters. -/
def validName (s : String) : Prop :=
  s.toList ≠ [] ∧ ∀ c ∈ s.toList, isWs c = false

/-- An amount that the two-decimal serialization represents exactly. -/
def isCent (q : ℚ) : Prop := q = ((⌊q * 100⌋ : ℤ) : ℚ) / 100

/-- Strict key-sortedness, the invariant of every map the program builds. -/
def MapSorted (m : List (String × ℚ)) : Prop :=
  m.Pairwise (fun p q => p.1 < q.1)

/-- The class of books the save format represents faithfully: duplicate-free
round-trippable user names, round-trippable payer and share names, sorted
share maps, and two-decimal-exact amounts. -/
def BookSavable (b : Book) : Prop :=
  b.users.Nodup ∧ (∀ u ∈ b.users, validName u) ∧
  ∀ e ∈ b.expenses, validName e.payer ∧ isCent e.amount ∧
    MapSorted e.shares ∧ ∀ q ∈ e.shares, validName q.1 ∧ isCent q.2

/-- The share block of an expense with each line preceded by the newline
that terminates the previous line; this regrouping of the serialized text
aligns with how the reader consumes it. -/
def encShifted (sh : List (String × ℚ)) : List Char :=
  sh.flatMap (fun p => '\n' :: (p.1.toList ++ ' ' :: fmt2 p.2))

instance decValidName (s : String) : Decidable (validName s) :=
  decidable_of_iff (s.toList ≠ [] ∧ ∀ c ∈ s.toList, isWs c = false) (by exact Iff.rfl)

instance decIsCent (q : ℚ) : Decidable (isCent q) :=
  decidable_of_iff (q = ((⌊q * 100⌋ : ℤ) : ℚ) / 100) (by exact Iff.rfl)

instance decMapSorted (m : List (String × ℚ)) : Decidable (MapSorted m) :=
  decidable_of_iff (m.Pairwise fun p q => p.1 < q.1) (by exact Iff.rfl)

instance decBookSavable (b : Book) : Decidable (BookSavable b) :=
  decidable_of_iff (b.users.Nodup ∧ (∀ u ∈ b.users, validName u) ∧
    ∀ e ∈ b.expenses, validName e.payer ∧ isCent e.amount ∧
      MapSorted e.shares ∧ ∀ q ∈ e.shares, validName q.1 ∧ isCent q.2)
    (by exact Iff.rfl)

/-- Name-indexed mass of a list of entries: the sum of the values attached to
a given name (each name occurs at most once in a sorted map, but the heap
lists of settle use the same shape). -/
def massOf (l : List (String × ℚ)) (u : String) : ℚ :=
  (l.map (fun p => if p.1 = u then p.2 else 0)).sum

/-- Total signed mass of a list of entries. -/
def totalAmt (l : List (String × ℚ)) : ℚ := (l.map Prod.snd).sum

/-! ### Association-list map lemmas -/

theorem mapAdd_mem {m : List (String × ℚ)} {k : String} {v : ℚ}
    {p : String × ℚ} (h : p ∈ mapAdd m k v) : p.1 = k ∨ p ∈ m := by
  induction m with
  | nil => simp [mapAdd] at h; simp [h]
  | cons a t ih =>
    simp only [mapAdd] at h
    split at h
    · simp only [List.mem_cons] at h
      rcases h with h | h | h
      · simp [h]
      · right; simp [h]
      · right; simp [h]
    · split at h
      · rename_i heq
        simp only [List.mem_cons] at h
        rcases h with h | h
        · left; rw [h]; exact heq.symm
        · right; simp [h]
      · simp only [List.mem_cons] at h
        rcases h with h | h
        · right; simp [h]
        · rcases ih h with h' | h'
          · exact Or.inl h'
          · right; simp [h']

theorem mapSet_mem {m : List (String × ℚ)} {k : String} {v : ℚ}
    {p : String × ℚ} (h : p ∈ mapSet m k v) : p.1 = k ∨ p ∈ m := by
  induction m with
  | nil => simp [mapSet] at h; simp [h]
  | cons a t ih =>
    simp only [mapSet] at h
    split at h
    · simp only [List.mem_cons] at h
      rcases h with h | h | h
      · simp [h]
      · right; simp [h]
      · right; simp [h]
    · split at h
      · rename_i heq
        simp only [List.mem_cons] at h
        rcases h with h | h
        · left; rw [h]; exact heq.symm
        · right; simp [h]
      · simp only [List.mem_cons] at h
        rcases h with h | h
        · right; simp [h]
        · rcases ih h with h' | h'
          · exact Or.inl h'
          · right; simp [h']

theorem mapSorted_mapAdd {m : List (String × ℚ)} (h : MapSorted m)
    (k : String) (v : ℚ) : MapSorted (mapAdd m k v) := by
  induction m with
  | nil => simp [mapAdd, MapSorted]
  | cons a t ih =>
    rcases List.pairwise_cons.mp h with ⟨ha, ht⟩
    simp only [mapAdd]
    split
    · rename_i hlt
      refine List.pairwise_cons.mpr ⟨?_, h⟩
      intro q hq
      rcases List.mem_cons.mp hq with hq | hq
      · simpa [hq] using hlt
      · exact lt_trans hlt (ha q hq)
    · split
      · rename_i heq
        subst heq
        exact List.pairwise_cons.mpr ⟨ha, ht⟩
      · rename_i hnlt hne
        refine List.pairwise_cons.mpr ⟨?_, ih ht⟩
        intro q hq
        rcases mapAdd_mem hq with h' | h'
        · rw [h']
          exact lt_of_le_of_ne (not_lt.mp hnlt) (Ne.symm hne)
        · exact ha q h'

theorem mapSorted_mapSet {m : List (String × ℚ)} (h : MapSorted m)
    (k : String) (v : ℚ) : MapSorted (mapSet m k v) := by
  induction m with
  | nil => simp [mapSet, MapSorted]
  | cons a t ih =>
    rcases List.pairwise_cons.mp h with ⟨ha, ht⟩
    simp only [mapSet]
    split
    · rename_i hlt
      refine List.pairwise_cons.mpr ⟨?_, h⟩
      intro q hq
      rcases List.mem_cons.mp hq with hq | hq
      · simpa [hq] using hlt
      · exact lt_trans hlt (ha q hq)
    · split
      · rename_i heq
        subst heq
        exact List.pairwise_cons.mpr ⟨ha, ht⟩
      · rename_i hnlt hne
        refine List.pairwise_cons.mpr ⟨?_, ih ht⟩
        intro q hq
        rcases mapSet_mem hq with h' | h'
        · rw [h']
          exact lt_of_le_of_ne (not_lt.mp hnlt) (Ne.symm hne)
        · exact ha q h'

theorem mapFind_eq_none {m : List (String × ℚ)} {k : String}
    (h : ∀ p ∈ m, ¬ k = p.1) : mapFind m k = none := by
  induction m with
  | nil => rfl
  | cons a t ih =>
    simp only [mapFind, if_neg (h a (by simp))]
    exact ih fun p hp => h p (by simp [hp])

theorem mapFind_eq_none_of_sorted_lt {m : List (String × ℚ)} {a : String × ℚ}
    {k : String} (h : MapSorted (a :: m)) (hk : k < a.1) : mapFind m k = none := by
  rcases List.pairwise_cons.mp h with ⟨ha, _⟩
  exact mapFind_eq_none fun p hp => by
    have := ha p hp
    intro hh
    exact absurd (lt_trans hk this) (by simp [hh])

theorem mapFind_mapAdd {m : List (String × ℚ)} (h : MapSorted m)
    (k : String) (v : ℚ) (x : String) :
    mapFind (mapAdd m k v) x =
      if x = k then some (findD m k + v) else mapFind m x := by
  induction m with
  | nil => by_cases hx : x = k <;> simp [mapAdd, mapFind, findD, hx]
  | cons a t ih =>
    have ht : MapSorted t := (List.pairwise_cons.mp h).2
    simp only [mapAdd]
    split
    · rename_i hlt
      have hka : ¬ k = a.1 := fun hh => by simp [hh] at hlt
      by_cases hx : x = k
      · subst hx
        simp [mapFind, findD, hka, mapFind_eq_none_of_sorted_lt h hlt]
      · simp [mapFind, hx]
    · rename_i hnlt
      split
      · rename_i heq
        subst heq
        by_cases hx : x = a.1 <;> simp [mapFind, findD, hx]
      · rename_i hne
        have hak : a.1 < k := lt_of_le_of_ne (not_lt.mp hnlt) fun hh => hne hh.symm
        by_cases hx : x = a.1
        · have hxk : ¬ x = k := fun hh => by
            rw [hx] at hh
            exact absurd hh.symm (ne_of_gt hak)
          have hak' : ¬ a.1 = k := fun hh => hne hh.symm
          simp [mapFind, hx, hxk, hak']
        · simp only [mapFind, if_neg hx, ih ht]
          by_cases hxk : x = k
          · subst hxk
            simp [findD, mapFind, hx]
          · simp [hxk]

theorem mapFind_mapSet {m : List (String × ℚ)} (h : MapSorted m)
    (k : String) (v : ℚ) (x : String) :
    mapFind (mapSet m k v) x = if x = k then some v else mapFind m x := by
  induction m with
  | nil => by_cases hx : x = k <;> simp [mapSet, mapFind, hx]
  | cons a t ih =>
    have ht : MapSorted t := (List.pairwise_cons.mp h).2
    simp only [mapSet]
    split
    · by_cases hx : x = k
      · simp [mapFind, hx]
      · simp [mapFind, hx]
    · rename_i hnlt
      split
      · rename_i heq
        subst heq
        by_cases hx : x = a.1 <;> simp [mapFind, hx]
      · rename_i hne
        have hak : a.1 < k := lt_of_le_of_ne (not_lt.mp hnlt) fun hh => hne hh.symm
        by_cases hx : x = a.1
        · have hxk : ¬ x = k := fun hh => by
            rw [hx] at hh
            exact absurd hh.symm (ne_of_gt hak)
          have hak' : ¬ a.1 = k := fun hh => hne hh.symm
          simp [mapFind, hx, hxk, hak']
        · simp only [mapFind, if_neg hx, ih ht]

theorem findD_mapAdd {m : List (String × ℚ)} (h : MapSorted m)
    (k : String) (v : ℚ) (x : String) :
    findD (mapAdd m k v) x = if x = k then findD m k + v else findD m x := by
  unfold findD
  rw [mapFind_mapAdd h]
  by_cases hx : x = k <;> simp [hx, findD]

theorem mapSorted_ext {m₁ m₂ : List (String × ℚ)} (h₁ : MapSorted m₁)
    (h₂ : MapSorted m₂) (h : ∀ x, mapFind m₁ x = mapFind m₂ x) : m₁ = m₂ := by
  induction m₁ generalizing m₂ with
  | nil =>
    cases m₂ with
    | nil => rfl
    | cons c s =>
      have := h c.1
      simp [mapFind] at this
  | cons a t ih =>
    cases m₂ with
    | nil =>
      have := h a.1
      simp [mapFind] at this
    | cons c s =>
      have hac : a.1 = c.1 := by
        rcases lt_trichotomy a.1 c.1 with hlt | heq | hgt
        · exfalso
          have := h a.1
          rw [mapFind, if_pos rfl, mapFind,
            if_neg (ne_of_lt hlt), mapFind_eq_none_of_sorted_lt h₂ hlt] at this
          exact Option.noConfusion this
        · exact heq
        · exfalso
          have := h c.1
          rw [mapFind, if_neg (ne_of_lt hgt),
            mapFind_eq_none_of_sorted_lt h₁ hgt, mapFind, if_pos rfl] at this
          exact Option.noConfusion this
      have hval : a.2 = c.2 := by
        have := h a.1
        rw [mapFind, if_pos rfl, mapFind, if_pos hac] at this
        exact Option.some.inj this
      have htail : t = s := by
        refine ih (List.pairwise_cons.mp h₁).2 (List.pairwise_cons.mp h₂).2 fun x => ?_
        by_cases hx : x = a.1
        · subst hx
          have ht1 : mapFind t a.1 = none :=
            mapFind_eq_none fun p hp hh =>
              absurd ((List.pairwise_cons.mp h₁).1 p hp) (hh ▸ lt_irrefl _)
          have hs1 : mapFind s a.1 = none :=
            mapFind_eq_none fun p hp hh =>
              absurd ((List.pairwise_cons.mp h₂).1 p hp)
                ((hac ▸ hh : c.1 = p.1) ▸ lt_irrefl _)
          rw [ht1, hs1]
        · have := h x
          rwa [mapFind, if_neg hx, mapFind, if_neg (hac ▸ hx)] at this
      calc a :: t = (a.1, a.2) :: t := by rw [Prod.mk.eta]
        _ = (c.1, c.2) :: s := by rw [hac, hval, htail]
        _ = c :: s := by rw [Prod.mk.eta]

theorem sumValues_mapAdd (m : List (String × ℚ)) (k : String) (v : ℚ) :
    sumValues (mapAdd m k v) = sumValues m + v := by
  induction m with
  | nil => simp [mapAdd, sumValues]
  | cons a t ih =>
    simp only [mapAdd]
    split
    · simp [sumValues]; ring
    · split
      · simp [sumValues]; ring
      · simp [sumValues, ih]; ring

theorem sumValues_eq_totalAmt (m : List (String × ℚ)) :
    sumValues m = totalAmt m := by
  induction m with
  | nil => simp [sumValues, totalAmt]
  | cons a t ih => simp [sumValues, totalAmt, ih]

theorem massOf_eq_zero {l : List (String × ℚ)} {u : String}
    (h : ∀ p ∈ l, ¬ p.1 = u) : massOf l u = 0 := by
  induction l with
  | nil => simp [massOf]
  | cons a t ih =>
    simp only [massOf, List.map_cons, List.sum_cons, if_neg (h a (by simp))]
    rw [zero_add]
    exact ih fun p hp => h p (by simp [hp])

theorem massOf_cons (a : String × ℚ) (t : List (String × ℚ)) (u : String) :
    massOf (a :: t) u = (if a.1 = u then a.2 else 0) + massOf t u := by
  simp [massOf]

theorem massOf_perm {l₁ l₂ : List (String × ℚ)} (h : l₁.Perm l₂) (u : String) :
    massOf l₁ u = massOf l₂ u :=
  List.Perm.sum_eq (h.map _)

theorem totalAmt_perm {l₁ l₂ : List (String × ℚ)} (h : l₁.Perm l₂) :
    totalAmt l₁ = totalAmt l₂ :=
  List.Perm.sum_eq (h.map _)

/-! ### Basic facts about the construction operations -/

theorem addExpenseEqual_success (b : Book) (payer : String) (amount : ℚ)
    (parts : List String) (hp : hasUser b payer) (hne : parts ≠ [])
    (hall : ∀ p ∈ parts, hasUser b p) :
    addExpenseEqual b payer amount parts =
      (⟨b.users, b.expenses ++
        [⟨payer, amount,
          parts.foldl (fun m p => mapAdd m p (amount / (parts.length : ℚ))) []⟩]⟩, none) := by
  have hfind : parts.find? (fun p => ¬ hasUser b p) = none := by
    rw [List.find?_eq_none]
    intro x hx
    simp [hall x hx]
  simp only [addExpenseEqual, hp, not_true, if_false, List.isEmpty_iff, hne, hfind]

theorem addExpenseEqual_failure (b : Book) (payer : String) (amount : ℚ)
    (parts : List String) (e : Err)
    (h : (addExpenseEqual b payer amount parts).2 = some e) :
    (addExpenseEqual b payer amount parts).1 = b := by
  unfold addExpenseEqual at *
  revert h
  split
  · intro _; rfl
  · split
    · intro _; rfl
    · split
      · intro _; rfl
      · intro h; simp at h

theorem addExpenseExact_failure (b : Book) (payer : String) (amount : ℚ)
    (ts : List String) (b' : Book) (e : Err)
    (h : addExpenseExact b payer amount ts = some (b', some e)) : b' = b := by
  unfold addExpenseExact at h
  split at h
  · exact (Prod.mk.injEq _ _ _ _ ▸ (Option.some.injEq _ _ ▸ h)).1.symm
  · split at h
    · exact (Prod.mk.injEq _ _ _ _ ▸ (Option.some.injEq _ _ ▸ h)).1.symm
    · split at h
      · exact absurd h (by simp)
      · exact (Prod.mk.injEq _ _ _ _ ▸ (Option.some.injEq _ _ ▸ h)).1.symm
      · rename_i sh s heq
        split at h
        · exact (Prod.mk.injEq _ _ _ _ ▸ (Option.some.injEq _ _ ▸ h)).1.symm
        · simp at h

theorem addExpenseExact_success (b : Book) (payer : String) (amount : ℚ)
    (tokens : List String) (sh : List (String × ℚ)) (s : ℚ)
    (hp : hasUser b payer) (hne : tokens ≠ [])
    (hparse : parseTokens b tokens [] 0 = some (.ok (sh, s)))
    (htol : ¬ |s - amount| > TOL) :
    addExpenseExact b payer amount tokens =
      some (⟨b.users, b.expenses ++ [⟨payer, amount, sh⟩]⟩, none) := by
  simp only [addExpenseExact, hp, not_true, if_false, List.isEmpty_iff, hne, hparse, htol]

/-! ### Claim C5 -/

/-- C5: the claim says every malformed token shape yields the MalformedToken
error; the code only guards the missing-colon shape, and a token whose part
after the colon is not a number reaches `stod` with no surrounding try/catch,
so the call throws an uncaught std::invalid_argument (modelled as `none`)
instead of returning an error.  The second conjunct records that the
missing-colon shape does produce the error. -/
theorem C5_stod_uncaught_exception :
    addExpenseExact bAB "A" 10 ["B:x"] = none ∧
    addExpenseExact bAB "A" 10 ["Bx"] = some (bAB, some (.badToken "Bx")) := by
  with_unfolding_all decide

/-! ### Claim C3 -/

/-- C3 counterexample: `load` is an operation that fails (returns the
CorruptPersistedState error) yet does not leave the store in its prior
state — it clears the users and expenses before parsing, so after a failed
load of a garbage file the two registered users are gone. -/
theorem C3_counterexample_load_mutates_on_failure :
    load bAB ("garbage".toList) = .done ⟨[], []⟩ (some .corruptUsers) ∧
    bAB.users = ["A", "B"] := by
  with_unfolding_all decide

/-- C3 amended: every construction operation (equal-split and exact-split)
leaves the Ledger Store exactly in its prior state on failure; `load` is the
exception, since it clears the store before parsing. -/
theorem C3_construction_ops_unchanged_on_failure :
    (∀ b p a ps e, (addExpenseEqual b p a ps).2 = some e →
      (addExpenseEqual b p a ps).1 = b) ∧
    (∀ b p a ts b' e, addExpenseExact b p a ts = some (b', some e) → b' = b) :=
  ⟨fun b p a ps e h => addExpenseEqual_failure b p a ps e h,
   fun b p a ts b' e h => addExpenseExact_failure b p a ts b' e h⟩

/-- C3 witness: a failing equal-split call (unknown payer) leaves the
concrete two-user book unchanged. -/
theorem C3_construction_ops_unchanged_on_failure_witness :
    (addExpenseEqual bAB "X" 5 ["A"]).2 = some (.unknownPayer "X") ∧
    (addExpenseEqual bAB "X" 5 ["A"]).1 = bAB :=
  ⟨by with_unfolding_all decide,
   C3_construction_ops_unchanged_on_failure.1 bAB "X" 5 ["A"] (.unknownPayer "X")
     (by with_unfolding_all decide)⟩

/-! ### Claim C7 -/

/-- C7 counterexample: the claim states the iff for every exact-split call,
but when the payer is unregistered the call fails with UnknownUser even
though the share sum (5) differs from the amount (10) by more than 0.01, so
the right-to-left direction fails. -/
theorem C7_counterexample_earlier_error_wins :
    (|(5 : ℚ) - 10| > TOL) ∧
    addExpenseExact ⟨[], []⟩ "A" 10 ["A:5"] =
      some (⟨[], []⟩, some (.unknownPayer "A")) := by
  with_unfolding_all decide

/-- C7 amended: provided the payer is registered, the token list is
non-empty, and every token parses with a registered participant (so the
token loop reaches the share-sum check, with parsed sum s), the call fails
with ShareMismatch iff the absolute difference between s and the amount
exceeds 0.01. -/
theorem C7_sharemismatch_iff (b : Book) (payer : String) (amount : ℚ)
    (tokens : List String) (sh : List (String × ℚ)) (s : ℚ)
    (hp : hasUser b payer) (hne : tokens ≠ [])
    (hparse : parseTokens b tokens [] 0 = some (.ok (sh, s))) :
    addExpenseExact b payer amount tokens =
        some (b, some (.shareMismatch s amount)) ↔ |s - amount| > TOL := by
  simp only [addExpenseExact, hp, not_true, if_false, List.isEmpty_iff, hne, hparse]
  constructor
  · intro h
    by_contra hc
    rw [if_neg hc] at h
    simp at h
  · intro h
    rw [if_pos h]

/-- C7 witness: with both users registered and token B:9.98 against amount
10, the mismatch is 0.02 > 0.01 and the call indeed fails with
ShareMismatch. -/
theorem C7_sharemismatch_iff_witness :
    addExpenseExact bAB "A" 10 ["B:9.98"] =
      some (bAB, some (.shareMismatch (499 / 50) 10)) :=
  (C7_sharemismatch_iff bAB "A" 10 ["B:9.98"] [("B", 499 / 50)] (499 / 50)
    (by with_unfolding_all decide) (by decide)
    (by with_unfolding_all rfl)).mpr (by with_unfolding_all decide)

/-! ### Claim C10 -/

/-- C10: neither constructor validates positivity.  With a registered payer
and valid participants, equal-split succeeds and appends the expense for any
non-positive amount; exact-split likewise succeeds for a non-positive amount
with (possibly negative) parsed shares whenever the share sum matches the
amount within 0.01. -/
theorem C10_no_positivity_check :
    (∀ b payer amount parts, hasUser b payer → parts ≠ [] →
      (∀ p ∈ parts, hasUser b p) → amount ≤ 0 →
      addExpenseEqual b payer amount parts =
        (⟨b.users, b.expenses ++
          [⟨payer, amount,
            parts.foldl (fun m p => mapAdd m p (amount / (parts.length : ℚ))) []⟩]⟩,
         none)) ∧
    (∀ b payer amount tokens sh s, hasUser b payer → tokens ≠ [] →
      amount ≤ 0 → parseTokens b tokens [] 0 = some (.ok (sh, s)) →
      |s - amount| ≤ TOL →
      addExpenseExact b payer amount tokens =
        some (⟨b.users, b.expenses ++ [⟨payer, amount, sh⟩]⟩, none)) :=
  ⟨fun b payer amount parts hp hne hall _ =>
    addExpenseEqual_success b payer amount parts hp hne hall,
   fun b payer amount tokens sh s hp hne _ hparse htol =>
    addExpenseExact_success b payer amount tokens sh s hp hne hparse
      (not_lt.mpr htol)⟩

/-- C10 witness: a negative-amount equal split and a negative-amount,
negative-share exact split both succeed on the concrete two-user book. -/
theorem C10_no_positivity_check_witness :
    addExpenseEqual bAB "A" (-5) ["B"] =
      (⟨bAB.users, bAB.expenses ++
        [⟨"A", -5, (["B"] : List String).foldl
          (fun m p => mapAdd m p ((-5) / ((["B"] : List String).length : ℚ))) []⟩]⟩,
       none) ∧
    addExpenseExact bAB "A" (-3) ["B:-3"] =
      some (⟨bAB.users, bAB.expenses ++ [⟨"A", -3, [("B", -3)]⟩]⟩, none) :=
  ⟨C10_no_positivity_check.1 bAB "A" (-5) ["B"] (by with_unfolding_all decide)
      (by decide) (by with_unfolding_all decide) (by norm_num),
   C10_no_positivity_check.2 bAB "A" (-3) ["B:-3"] [("B", -3)] (-3)
      (by with_unfolding_all decide) (by decide) (by norm_num)
      (by with_unfolding_all rfl) (by norm_num [TOL])⟩

/-! ### Characterization of applyExpense and order-independence -/

theorem mapSorted_foldl_shares {m : List (String × ℚ)} (h : MapSorted m)
    (l : List (String × ℚ)) :
    MapSorted (l.foldl (fun m p => mapAdd m p.1 (-p.2)) m) := by
  induction l generalizing m with
  | nil => exact h
  | cons p l ih => exact ih (mapSorted_mapAdd h _ _)

theorem mapSorted_applyExpense {m : List (String × ℚ)} (h : MapSorted m)
    (e : Expense) : MapSorted (applyExpense m e) :=
  mapSorted_foldl_shares (mapSorted_mapAdd h _ _) _

theorem mapFind_foldl_shares {m : List (String × ℚ)} (h : MapSorted m)
    (l : List (String × ℚ)) (x : String) :
    mapFind (l.foldl (fun m p => mapAdd m p.1 (-p.2)) m) x =
      if x ∈ l.map Prod.fst then some (findD m x - massOf l x)
      else mapFind m x := by
  induction l generalizing m with
  | nil => simp
  | cons p l ih =>
    simp only [List.foldl_cons]
    rw [ih (mapSorted_mapAdd h _ _)]
    by_cases hxl : x ∈ l.map Prod.fst
    · rw [if_pos hxl, if_pos (by simp [hxl]), findD_mapAdd h, massOf_cons]
      by_cases hxp : x = p.1
      · rw [if_pos hxp, if_pos hxp.symm]
        refine congrArg some ?_
        rw [hxp]
        ring
      · rw [if_neg hxp, if_neg fun hh => hxp hh.symm]
        refine congrArg some ?_
        ring
    · by_cases hxp : x = p.1
      · have hml : massOf l x = 0 :=
          massOf_eq_zero fun q hq hh => hxl (List.mem_map.mpr ⟨q, hq, hh⟩)
        rw [if_neg hxl, mapFind_mapAdd h, if_pos hxp,
          if_pos (by simp [hxp]), massOf_cons, if_pos hxp.symm, hml, hxp]
        refine congrArg some ?_
        ring
      · rw [if_neg hxl, mapFind_mapAdd h, if_neg hxp,
          if_neg (by simp [hxp, hxl])]

theorem mapFind_applyExpense {m : List (String × ℚ)} (h : MapSorted m)
    (e : Expense) (x : String) :
    mapFind (applyExpense m e) x =
      if x = e.payer ∨ x ∈ e.shares.map Prod.fst then
        some (findD m x + ((if x = e.payer then e.amount else 0) - massOf e.shares x))
      else mapFind m x := by
  unfold applyExpense
  rw [mapFind_foldl_shares (mapSorted_mapAdd h _ _)]
  by_cases hsh : x ∈ e.shares.map Prod.fst
  · rw [if_pos hsh, if_pos (Or.inr hsh), findD_mapAdd h]
    by_cases hxp : x = e.payer
    · rw [if_pos hxp, if_pos hxp, hxp]
      refine congrArg some ?_
      ring
    · rw [if_neg hxp, if_neg hxp]
      refine congrArg some ?_
      ring
  · rw [if_neg hsh, mapFind_mapAdd h]
    by_cases hxp : x = e.payer
    · have hm0 : massOf e.shares x = 0 :=
        massOf_eq_zero fun q hq hh => hsh (List.mem_map.mpr ⟨q, hq, hh⟩)
      rw [if_pos hxp, if_pos (Or.inl hxp), if_pos hxp, hm0, hxp]
      refine congrArg some ?_
      ring
    · rw [if_neg hxp, if_neg (by simp [hxp, hsh])]

theorem findD_applyExpense {m : List (String × ℚ)} (h : MapSorted m)
    (e : Expense) (x : String) :
    findD (applyExpense m e) x =
      findD m x + (if x = e.payer ∨ x ∈ e.shares.map Prod.fst then
        ((if x = e.payer then e.amount else 0) - massOf e.shares x) else 0) := by
  simp only [findD, mapFind_applyExpense h]
  by_cases ht : x = e.payer ∨ x ∈ e.shares.map Prod.fst
  · rw [if_pos ht, if_pos ht, Option.getD_some]
  · rw [if_neg ht, if_neg ht, add_zero]

theorem applyExpense_comm {m : List (String × ℚ)} (h : MapSorted m)
    (e₁ e₂ : Expense) :
    applyExpense (applyExpense m e₁) e₂ = applyExpense (applyExpense m e₂) e₁ := by
  refine mapSorted_ext (mapSorted_applyExpense (mapSorted_applyExpense h e₁) e₂)
    (mapSorted_applyExpense (mapSorted_applyExpense h e₂) e₁) fun x => ?_
  rw [mapFind_applyExpense (mapSorted_applyExpense h e₁) e₂,
      mapFind_applyExpense (mapSorted_applyExpense h e₂) e₁]
  by_cases h₁ : x = e₁.payer ∨ x ∈ e₁.shares.map Prod.fst <;>
    by_cases h₂ : x = e₂.payer ∨ x ∈ e₂.shares.map Prod.fst
  · rw [if_pos h₂, if_pos h₁, findD_applyExpense h e₁ x, findD_applyExpense h e₂ x,
      if_pos h₁, if_pos h₂]
    refine congrArg some ?_
    ring
  · rw [if_neg h₂, if_pos h₁, mapFind_applyExpense h e₁, if_pos h₁,
      findD_applyExpense h e₂, if_neg h₂, add_zero]
  · rw [if_pos h₂, if_neg h₁, mapFind_applyExpense h e₂, if_pos h₂,
      findD_applyExpense h e₁, if_neg h₁, add_zero]
  · rw [if_neg h₂, if_neg h₁, mapFind_applyExpense h e₁, if_neg h₁,
      mapFind_applyExpense h e₂, if_neg h₂]

theorem mapSorted_foldl_mapSet {m : List (String × ℚ)} (h : MapSorted m)
    (us : List String) (v : ℚ) :
    MapSorted (us.foldl (fun m u => mapSet m u v) m) := by
  induction us generalizing m with
  | nil => exact h
  | cons u us ih => exact ih (mapSorted_mapSet h _ _)

theorem mapSorted_initNet (us : List String) :
    MapSorted (us.foldl (fun m u => mapSet m u 0) []) :=
  mapSorted_foldl_mapSet (by simp [MapSorted]) us 0

theorem foldl_applyExpense_perm {m : List (String × ℚ)} (h : MapSorted m)
    {es es' : List Expense} (hp : es.Perm es') :
    es.foldl applyExpense m = es'.foldl applyExpense m := by
  induction hp generalizing m with
  | nil => rfl
  | cons x _ ih =>
    simp only [List.foldl_cons]
    exact ih (mapSorted_applyExpense h x)
  | swap x y l =>
    simp only [List.foldl_cons]
    rw [applyExpense_comm h]
  | trans _ _ ih₁ ih₂ => rw [ih₁ h, ih₂ h]

/-! ### Claim C6 -/

/-- C6: permuting the insertion order of a fixed multiset of expenses does
not change the mapping computeNet returns over the same user set. -/
theorem C6_computeNet_order_independent (users : List String)
    {es es' : List Expense} (hp : es.Perm es') :
    computeNet ⟨users, es⟩ = computeNet ⟨users, es'⟩ := by
  unfold computeNet
  rw [foldl_applyExpense_perm (mapSorted_initNet users) hp]

/-- C6 witness: swapping two concrete expenses leaves computeNet unchanged. -/
theorem C6_computeNet_order_independent_witness :
    computeNet ⟨["A", "B"],
      [⟨"A", 4, [("B", 4)]⟩, ⟨"B", 6, [("A", 6)]⟩]⟩ =
    computeNet ⟨["A", "B"],
      [⟨"B", 6, [("A", 6)]⟩, ⟨"A", 4, [("B", 4)]⟩]⟩ :=
  C6_computeNet_order_independent ["A", "B"]
    (List.Perm.swap (⟨"B", 6, [("A", 6)]⟩ : Expense) (⟨"A", 4, [("B", 4)]⟩ : Expense) [])

/-! ### Inversion of successful construction, and reachability invariants -/

theorem hasUser_mem {b : Book} {u : String} : hasUser b u ↔ u ∈ b.users := by
  simp [hasUser]

theorem addUser_expenses (b : Book) (u : String) :
    (addUser b u).expenses = b.expenses := by
  unfold addUser
  split <;> rfl

theorem addUser_users_sub {b : Book} {x : String} (u : String)
    (h : x ∈ b.users) : x ∈ (addUser b u).users := by
  unfold addUser
  split
  · exact h
  · simp [h]

theorem addExpenseEqual_inv {b b' : Book} {p : String} {a : ℚ} {ps : List String}
    (h : addExpenseEqual b p a ps = (b', none)) :
    hasUser b p ∧ ps ≠ [] ∧ (∀ x ∈ ps, hasUser b x) ∧
    b' = ⟨b.users, b.expenses ++
      [⟨p, a, ps.foldl (fun m x => mapAdd m x (a / (ps.length : ℚ))) []⟩]⟩ := by
  unfold addExpenseEqual at h
  split at h
  · exact absurd (congrArg Prod.snd h) (by simp)
  · split at h
    · exact absurd (congrArg Prod.snd h) (by simp)
    · split at h
      · exact absurd (congrArg Prod.snd h) (by simp)
      · rename_i hpayer hempty _x hfind
        refine ⟨by simpa using hpayer, by simpa [List.isEmpty_iff] using hempty, ?_, ?_⟩
        · intro x hx
          have := List.find?_eq_none.mp hfind x hx
          simpa using this
        · exact (congrArg Prod.fst h).symm

theorem addExpenseExact_inv {b b' : Book} {p : String} {a : ℚ} {ts : List String}
    (h : addExpenseExact b p a ts = some (b', none)) :
    hasUser b p ∧ ts ≠ [] ∧ ∃ sh s,
      parseTokens b ts [] 0 = some (.ok (sh, s)) ∧ |s - a| ≤ TOL ∧
      b' = ⟨b.users, b.expenses ++ [⟨p, a, sh⟩]⟩ := by
  unfold addExpenseExact at h
  split at h
  · exact absurd h (by simp)
  · split at h
    · exact absurd h (by simp)
    · rename_i h1 h2
      split at h
      · exact absurd h (by simp)
      · exact absurd h (by simp)
      · rename_i sh s hparse
        split at h
        · exact absurd h (by simp)
        · rename_i htol
          refine ⟨by simpa using h1, by simpa [List.isEmpty_iff] using h2,
            sh, s, hparse, not_lt.mp htol, ?_⟩
          have := Option.some.inj h
          exact (congrArg Prod.fst this).symm

theorem parseTokens_sum {b : Book} {ts : List String} {acc : List (String × ℚ)}
    {s₀ : ℚ} {sh : List (String × ℚ)} {s : ℚ}
    (h : parseTokens b ts acc s₀ = some (.ok (sh, s))) :
    sumValues sh - s = sumValues acc - s₀ := by
  induction ts generalizing acc s₀ with
  | nil =>
    simp only [parseTokens] at h
    have h' : (acc, s₀) = (sh, s) := Except.ok.inj (Option.some.inj h)
    injection h' with h1 h2
    rw [h1, h2]
  | cons t ts ih =>
    simp only [parseTokens] at h
    split at h
    · simp at h
    · split at h
      · exact absurd h (by simp)
      · split at h
        · simp at h
        · have := ih h
          rw [this, sumValues_mapAdd]
          ring

theorem parseTokens_mem {b : Book} {ts : List String} {acc : List (String × ℚ)}
    {s₀ : ℚ} {sh : List (String × ℚ)} {s : ℚ}
    (h : parseTokens b ts acc s₀ = some (.ok (sh, s)))
    (hacc : ∀ q ∈ acc, hasUser b q.1) : ∀ q ∈ sh, hasUser b q.1 := by
  induction ts generalizing acc s₀ with
  | nil =>
    have h' : (acc, s₀) = (sh, s) := by
      simp only [parseTokens] at h
      exact Except.ok.inj (Option.some.inj h)
    injection h' with h1 h2
    exact h1 ▸ hacc
  | cons t ts ih =>
    simp only [parseTokens] at h
    split at h
    · simp at h
    · split at h
      · exact absurd h (by simp)
      · split at h
        · simp at h
        · rename_i name amtStr v hname
          refine ih h fun q hq => ?_
          rcases mapAdd_mem hq with h' | h'
          · rw [h']
            simpa using hname
          · exact hacc q h'

theorem sumValues_foldl_mapAdd_const (l : List String) (v : ℚ)
    (m : List (String × ℚ)) :
    sumValues (l.foldl (fun m x => mapAdd m x v) m) =
      sumValues m + l.length * v := by
  induction l generalizing m with
  | nil => simp [sumValues]
  | cons x l ih =>
    simp only [List.foldl_cons, ih, sumValues_mapAdd, List.length_cons]
    push_cast
    ring

theorem foldl_mapAdd_const_mem {l : List String} {v : ℚ}
    {m : List (String × ℚ)} {q : String × ℚ}
    (h : q ∈ l.foldl (fun m x => mapAdd m x v) m) : q.1 ∈ l ∨ q ∈ m := by
  induction l generalizing m with
  | nil => exact Or.inr h
  | cons x l ih =>
    rcases ih h with h' | h'
    · exact Or.inl (by simp [h'])
    · rcases mapAdd_mem h' with h'' | h''
      · exact Or.inl (by simp [h''])
      · exact Or.inr h''

theorem reachable_tol {b : Book} (h : Reachable b) :
    ∀ e ∈ b.expenses, |sumValues e.shares - e.amount| ≤ TOL := by
  induction h with
  | empty => intro e he; simp at he
  | user b u _ ih => rw [addUser_expenses]; exact ih
  | equalSplit b b' p a ps _ heq ih =>
    obtain ⟨_, hne, _, rfl⟩ := addExpenseEqual_inv heq
    intro e he
    rcases List.mem_append.mp he with he | he
    · exact ih e he
    · have he' : e = ⟨p, a,
        ps.foldl (fun m x => mapAdd m x (a / (ps.length : ℚ))) []⟩ := by
        simpa using he
      subst he'
      have hlen : ((ps.length : ℚ)) ≠ 0 :=
        Nat.cast_ne_zero.mpr (List.length_pos.mpr hne).ne'
      simp only [sumValues_foldl_mapAdd_const, sumValues]
      rw [zero_add, mul_div_cancel₀ a hlen]
      simp [TOL]
  | exactSplit b b' p a ts _ heq ih =>
    obtain ⟨_, _, sh, s, hparse, htol, rfl⟩ := addExpenseExact_inv heq
    intro e he
    rcases List.mem_append.mp he with he | he
    · exact ih e he
    · have he' : e = ⟨p, a, sh⟩ := by simpa using he
      subst he'
      have hs : sumValues sh = s := by
        have := parseTokens_sum hparse
        simp [sumValues] at this
        linarith
      simpa [hs] using htol

theorem reachable_mem_users {b : Book} (h : Reachable b) :
    ∀ e ∈ b.expenses, e.payer ∈ b.users ∧ ∀ q ∈ e.shares, q.1 ∈ b.users := by
  induction h with
  | empty => intro e he; simp at he
  | user b u _ ih =>
    rw [addUser_expenses]
    intro e he
    exact ⟨addUser_users_sub u (ih e he).1,
      fun q hq => addUser_users_sub u ((ih e he).2 q hq)⟩
  | equalSplit b b' p a ps _ heq ih =>
    obtain ⟨hp, _, hall, rfl⟩ := addExpenseEqual_inv heq
    intro e he
    rcases List.mem_append.mp he with he | he
    · exact ih e he
    · have he' : e = ⟨p, a,
        ps.foldl (fun m x => mapAdd m x (a / (ps.length : ℚ))) []⟩ := by
        simpa using he
      subst he'
      refine ⟨hasUser_mem.mp hp, fun q hq => ?_⟩
      rcases foldl_mapAdd_const_mem hq with h' | h'
      · exact hasUser_mem.mp (hall q.1 h')
      · simp at h'
  | exactSplit b b' p a ts _ heq ih =>
    obtain ⟨hp, _, sh, s, hparse, _, rfl⟩ := addExpenseExact_inv heq
    intro e he
    rcases List.mem_append.mp he with he | he
    · exact ih e he
    · have he' : e = ⟨p, a, sh⟩ := by simpa using he
      subst he'
      refine ⟨hasUser_mem.mp hp, fun q hq => ?_⟩
      exact hasUser_mem.mp (parseTokens_mem hparse (by simp) q hq)

/-! ### Conservation of money up to the tolerated slack -/

theorem mapSet_mem_strong {m : List (String × ℚ)} {k : String} {v : ℚ}
    {p : String × ℚ} (h : p ∈ mapSet m k v) : p = (k, v) ∨ p ∈ m := by
  induction m with
  | nil => simp [mapSet] at h; simp [h]
  | cons a t ih =>
    simp only [mapSet] at h
    split at h
    · simp only [List.mem_cons] at h
      rcases h with h | h | h
      · simp [h]
      · right; simp [h]
      · right; simp [h]
    · split at h
      · rename_i heq
        simp only [List.mem_cons] at h
        rcases h with h | h
        · left; rw [h, heq]
        · right; simp [h]
      · simp only [List.mem_cons] at h
        rcases h with h | h
        · right; simp [h]
        · rcases ih h with h' | h'
          · exact Or.inl h'
          · right; simp [h']

theorem sumValues_eq_zero {m : List (String × ℚ)}
    (h : ∀ q ∈ m, q.2 = 0) : sumValues m = 0 := by
  induction m with
  | nil => rfl
  | cons a t ih =>
    simp only [sumValues, h a (by simp), zero_add]
    exact ih fun q hq => h q (by simp [hq])

theorem initNet_values_zero (us : List String) :
    ∀ q ∈ us.foldl (fun m u => mapSet m u 0) [], q.2 = 0 := by
  suffices hgen : ∀ (us : List String) (m : List (String × ℚ)), (∀ q ∈ m, q.2 = 0) →
      ∀ q ∈ us.foldl (fun m u => mapSet m u 0) m, q.2 = 0 by
    exact hgen us [] (by simp)
  intro us
  induction us with
  | nil => intro m hm; exact hm
  | cons u us ih =>
    intro m hm
    refine ih (mapSet m u 0) fun q hq => ?_
    rcases mapSet_mem_strong hq with h' | h'
    · rw [h']
    · exact hm q h'

theorem sumValues_initNet (us : List String) :
    sumValues (us.foldl (fun m u => mapSet m u 0) []) = 0 :=
  sumValues_eq_zero (initNet_values_zero us)

theorem sumValues_foldl_shares (l : List (String × ℚ)) (m : List (String × ℚ)) :
    sumValues (l.foldl (fun m p => mapAdd m p.1 (-p.2)) m) =
      sumValues m - sumValues l := by
  induction l generalizing m with
  | nil => simp [sumValues]
  | cons p l ih =>
    simp only [List.foldl_cons, ih, sumValues_mapAdd, sumValues]
    ring

theorem sumValues_applyExpense (m : List (String × ℚ)) (e : Expense) :
    sumValues (applyExpense m e) = sumValues m + e.amount - sumValues e.shares := by
  unfold applyExpense
  rw [sumValues_foldl_shares, sumValues_mapAdd]

theorem TOL_nonneg : (0 : ℚ) ≤ TOL := by norm_num [TOL]

theorem CLAMP_nonneg : (0 : ℚ) ≤ CLAMP := by norm_num [CLAMP]

theorem EPS_pos : (0 : ℚ) < EPS := by norm_num [EPS]

theorem abs_sumValues_foldl_applyExpense (es : List Expense)
    (m : List (String × ℚ))
    (h : ∀ e ∈ es, |sumValues e.shares - e.amount| ≤ TOL) :
    |sumValues (es.foldl applyExpense m) - sumValues m| ≤ es.length * TOL := by
  induction es generalizing m with
  | nil => simp
  | cons e es ih =>
    have h1 := ih (applyExpense m e) fun x hx => h x (by simp [hx])
    have h2 : |sumValues (applyExpense m e) - sumValues m| ≤ TOL := by
      rw [sumValues_applyExpense]
      have := h e (by simp)
      rw [abs_sub_comm] at this
      calc |sumValues m + e.amount - sumValues e.shares - sumValues m|
          = |e.amount - sumValues e.shares| := by ring_nf
        _ ≤ TOL := this
    calc |sumValues ((e :: es).foldl applyExpense m) - sumValues m|
        ≤ |sumValues (es.foldl applyExpense (applyExpense m e)) -
            sumValues (applyExpense m e)| +
          |sumValues (applyExpense m e) - sumValues m| := by
          simpa using abs_sub_le _ (sumValues (applyExpense m e)) _
      _ ≤ es.length * TOL + TOL := add_le_add h1 h2
      _ = (e :: es).length * TOL := by
          simp only [List.length_cons]
          push_cast
          ring

theorem abs_sumValues_clampMap (m : List (String × ℚ)) :
    |sumValues (clampMap m) - sumValues m| ≤ m.length * CLAMP := by
  induction m with
  | nil => simp [clampMap, sumValues]
  | cons a t ih =>
    simp only [clampMap, List.map_cons, sumValues, List.length_cons] at *
    have hstep : |(if |a.2| < CLAMP then 0 else a.2) - a.2| ≤ CLAMP := by
      split
      · rename_i hc
        rw [zero_sub, abs_neg]
        exact le_of_lt hc
      · simp [CLAMP_nonneg]
    calc |(if |a.2| < CLAMP then 0 else a.2) +
          sumValues (t.map fun p => (p.1, if |p.2| < CLAMP then 0 else p.2)) -
          (a.2 + sumValues t)|
        ≤ |(if |a.2| < CLAMP then 0 else a.2) - a.2| +
          |sumValues (t.map fun p => (p.1, if |p.2| < CLAMP then 0 else p.2)) -
            sumValues t| := by
          have := abs_add ((if |a.2| < CLAMP then 0 else a.2) - a.2)
            (sumValues (t.map fun p => (p.1, if |p.2| < CLAMP then 0 else p.2)) -
              sumValues t)
          calc _ = |((if |a.2| < CLAMP then 0 else a.2) - a.2) +
              (sumValues (t.map fun p => (p.1, if |p.2| < CLAMP then 0 else p.2)) -
                sumValues t)| := by ring_nf
            _ ≤ _ := this
      _ ≤ CLAMP + t.length * CLAMP := add_le_add hstep ih
      _ = ((t.length + 1 : ℕ) : ℚ) * CLAMP := by push_cast; ring

theorem length_clampMap (m : List (String × ℚ)) :
    (clampMap m).length = m.length := by
  simp [clampMap]

theorem keys_mapAdd_of_mem {m : List (String × ℚ)} {k : String} (v : ℚ)
    (h : MapSorted m) (hk : k ∈ m.map Prod.fst) :
    (mapAdd m k v).map Prod.fst = m.map Prod.fst := by
  induction m with
  | nil => simp at hk
  | cons a t ih =>
    have ha := (List.pairwise_cons.mp h).1
    simp only [mapAdd]
    split
    · rename_i hlt
      exfalso
      simp only [List.map_cons, List.mem_cons] at hk
      rcases hk with hk | hk
      · rw [hk] at hlt; exact lt_irrefl _ hlt
      · rcases List.mem_map.mp hk with ⟨q, hq, hqk⟩
        exact absurd (lt_trans hlt (ha q hq)) (hqk ▸ lt_irrefl _)
    · split
      · rename_i heq
        simp [heq]
      · rename_i hnlt hne
        have hk' : k ∈ t.map Prod.fst := by
          simp only [List.map_cons, List.mem_cons] at hk
          rcases hk with hk | hk
          · exact absurd hk hne
          · exact hk
        simp only [List.map_cons]
        rw [ih (List.pairwise_cons.mp h).2 hk']

theorem keys_foldl_shares {m : List (String × ℚ)} {l : List (String × ℚ)}
    (h : MapSorted m) (hl : ∀ q ∈ l, q.1 ∈ m.map Prod.fst) :
    (l.foldl (fun m p => mapAdd m p.1 (-p.2)) m).map Prod.fst = m.map Prod.fst := by
  induction l generalizing m with
  | nil => rfl
  | cons p l ih =>
    simp only [List.foldl_cons]
    have hkeys : (mapAdd m p.1 (-p.2)).map Prod.fst = m.map Prod.fst :=
      keys_mapAdd_of_mem _ h (hl p (by simp))
    rw [ih (mapSorted_mapAdd h _ _) fun q hq => hkeys ▸ hl q (by simp [hq]), hkeys]

theorem keys_applyExpense {m : List (String × ℚ)} {e : Expense}
    (h : MapSorted m) (hp : e.payer ∈ m.map Prod.fst)
    (hs : ∀ q ∈ e.shares, q.1 ∈ m.map Prod.fst) :
    (applyExpense m e).map Prod.fst = m.map Prod.fst := by
  unfold applyExpense
  have hkeys : (mapAdd m e.payer e.amount).map Prod.fst = m.map Prod.fst :=
    keys_mapAdd_of_mem _ h hp
  rw [keys_foldl_shares (mapSorted_mapAdd h _ _) fun q hq => hkeys ▸ hs q hq, hkeys]

theorem keys_foldl_applyExpense {m : List (String × ℚ)} {es : List Expense}
    (h : MapSorted m)
    (hes : ∀ e ∈ es, e.payer ∈ m.map Prod.fst ∧ ∀ q ∈ e.shares, q.1 ∈ m.map Prod.fst) :
    (es.foldl applyExpense m).map Prod.fst = m.map Prod.fst := by
  induction es generalizing m with
  | nil => rfl
  | cons e es ih =>
    simp only [List.foldl_cons]
    have hkeys : (applyExpense m e).map Prod.fst = m.map Prod.fst :=
      keys_applyExpense h (hes e (by simp)).1 (hes e (by simp)).2
    rw [ih (mapSorted_applyExpense h e) fun x hx =>
      ⟨hkeys ▸ (hes x (by simp [hx])).1, fun q hq => hkeys ▸ (hes x (by simp [hx])).2 q hq⟩,
      hkeys]

theorem keys_mapSet_mem {m : List (String × ℚ)} {k x : String} {v : ℚ} :
    x ∈ (mapSet m k v).map Prod.fst ↔ x = k ∨ x ∈ m.map Prod.fst := by
  induction m with
  | nil => simp [mapSet]
  | cons a t ih =>
    simp only [mapSet]
    split
    · simp
    · split
      · rename_i heq
        subst heq
        simp only [List.map_cons, List.mem_cons]
        constructor
        · intro h; exact h.elim (fun h => Or.inl h) fun h => Or.inr (Or.inr h)
        · intro h
          rcases h with h | h | h
          · exact Or.inl h
          · exact Or.inl h
          · exact Or.inr h
      · simp only [List.map_cons, List.mem_cons, ih]
        constructor
        · intro h
          rcases h with h | h | h
          · exact Or.inr (Or.inl h)
          · exact Or.inl h
          · exact Or.inr (Or.inr h)
        · intro h
          rcases h with h | h | h
          · exact Or.inr (Or.inl h)
          · exact Or.inl h
          · exact Or.inr (Or.inr h)

theorem initNet_keys (us : List String) (x : String) :
    x ∈ (us.foldl (fun m u => mapSet m u 0) []).map Prod.fst ↔ x ∈ us := by
  suffices hgen : ∀ (us : List String) (m : List (String × ℚ)),
      (x ∈ (us.foldl (fun m u => mapSet m u 0) m).map Prod.fst ↔
        x ∈ us ∨ x ∈ m.map Prod.fst) by
    rw [hgen us []]
    simp
  intro us
  induction us with
  | nil => intro m; simp
  | cons u us ih =>
    intro m
    simp only [List.foldl_cons, ih, keys_mapSet_mem, List.mem_cons]
    constructor
    · intro h
      rcases h with h | h | h
      · exact Or.inl (Or.inr h)
      · exact Or.inl (Or.inl h)
      · exact Or.inr h
    · intro h
      rcases h with (h | h) | h
      · exact Or.inr (Or.inl h)
      · exact Or.inl h
      · exact Or.inr (Or.inr h)

theorem length_mapSet_le (m : List (String × ℚ)) (k : String) (v : ℚ) :
    (mapSet m k v).length ≤ m.length + 1 := by
  induction m with
  | nil => simp [mapSet]
  | cons a t ih =>
    simp only [mapSet]
    split
    · simp
    · split
      · simp
      · simpa using Nat.succ_le_succ ih

theorem initNet_length (us : List String) :
    (us.foldl (fun m u => mapSet m u 0) []).length ≤ us.length := by
  suffices hgen : ∀ (us : List String) (m : List (String × ℚ)),
      (us.foldl (fun m u => mapSet m u 0) m).length ≤ us.length + m.length by
    simpa using hgen us []
  intro us
  induction us with
  | nil => intro m; simp
  | cons u us ih =>
    intro m
    calc ((u :: us).foldl (fun m u => mapSet m u 0) m).length
        ≤ us.length + (mapSet m u 0).length := ih (mapSet m u 0)
      _ ≤ us.length + (m.length + 1) := Nat.add_le_add_left (length_mapSet_le m u 0) _
      _ = (u :: us).length + m.length := by simp [List.length_cons]; omega

theorem computeNet_length_le {b : Book} (h : Reachable b) :
    (computeNet b).length ≤ b.users.length := by
  unfold computeNet
  rw [length_clampMap]
  have hkeys : ((b.expenses.foldl applyExpense
      (b.users.foldl (fun m u => mapSet m u 0) [])).map Prod.fst) =
      ((b.users.foldl (fun m u => mapSet m u 0) []).map Prod.fst) := by
    refine keys_foldl_applyExpense (mapSorted_initNet b.users) fun e he => ?_
    obtain ⟨hp, hs⟩ := reachable_mem_users h e he
    exact ⟨(initNet_keys b.users e.payer).mpr hp,
      fun q hq => (initNet_keys b.users q.1).mpr (hs q hq)⟩
  have hlen := congrArg List.length hkeys
  simp only [List.length_map] at hlen
  rw [hlen]
  exact initNet_length b.users

/-! ### Claim C2 -/

/-- Helper reachability fact shared by the C2 counterexample and witness:
the 0.01-slack exploiting ledger is reachable through the public API. -/
theorem reachable_bMismatch :
    Reachable (⟨["A", "B"], [⟨"A", 10, [("B", 999 / 100)]⟩]⟩ : Book) :=
  Reachable.exactSplit bAB _ "A" 10 ["B:9.99"]
    (Reachable.user _ "B" (Reachable.user _ "A" Reachable.empty))
    (by with_unfolding_all decide)

/-- C2 counterexample: the exact-split tolerance lets the share sum differ
from the amount by up to 0.01, and that slack survives into the sum of net
balances: after an accepted expense of amount 10 with a single share of 9.99
the balances sum to 0.01, which is not within 1e-6 of zero. -/
theorem C2_counterexample_sum_exceeds_eps :
    Reachable (⟨["A", "B"], [⟨"A", 10, [("B", 999 / 100)]⟩]⟩ : Book) ∧
    ¬ (|sumValues (computeNet ⟨["A", "B"], [⟨"A", 10, [("B", 999 / 100)]⟩]⟩)| ≤
        1 / 1000000) :=
  ⟨reachable_bMismatch, by with_unfolding_all decide⟩

/-- Global conservation: the slack the program tolerates is one share-sum
tolerance per expense plus one clamp per user. -/
theorem sumValues_computeNet_bound (b : Book) (h : Reachable b) :
    |sumValues (computeNet b)| ≤
      b.expenses.length * TOL + b.users.length * CLAMP := by
  unfold computeNet
  have h0 : sumValues (b.users.foldl (fun m u => mapSet m u 0) []) = 0 :=
    sumValues_initNet b.users
  have h1 : |sumValues (b.expenses.foldl applyExpense
      (b.users.foldl (fun m u => mapSet m u 0) []))| ≤ b.expenses.length * TOL := by
    have := abs_sumValues_foldl_applyExpense b.expenses
      (b.users.foldl (fun m u => mapSet m u 0) []) (reachable_tol h)
    rwa [h0, sub_zero] at this
  have h2 : |sumValues (clampMap (b.expenses.foldl applyExpense
      (b.users.foldl (fun m u => mapSet m u 0) []))) -
      sumValues (b.expenses.foldl applyExpense
        (b.users.foldl (fun m u => mapSet m u 0) []))| ≤
      (b.expenses.foldl applyExpense
        (b.users.foldl (fun m u => mapSet m u 0) [])).length * CLAMP :=
    abs_sumValues_clampMap _
  have h3 : ((b.expenses.foldl applyExpense
      (b.users.foldl (fun m u => mapSet m u 0) [])).length : ℚ) ≤
      (b.users.length : ℚ) := by
    have := computeNet_length_le h
    rw [computeNet, length_clampMap] at this
    exact_mod_cast this
  have h4 : ((b.expenses.foldl applyExpense
      (b.users.foldl (fun m u => mapSet m u 0) [])).length : ℚ) * CLAMP ≤
      (b.users.length : ℚ) * CLAMP :=
    mul_le_mul_of_nonneg_right h3 CLAMP_nonneg
  calc |sumValues (clampMap (b.expenses.foldl applyExpense
        (b.users.foldl (fun m u => mapSet m u 0) [])))|
      ≤ |sumValues (clampMap (b.expenses.foldl applyExpense
          (b.users.foldl (fun m u => mapSet m u 0) []))) -
        sumValues (b.expenses.foldl applyExpense
          (b.users.foldl (fun m u => mapSet m u 0) []))| +
        |sumValues (b.expenses.foldl applyExpense
          (b.users.foldl (fun m u => mapSet m u 0) []))| := by
        simpa using abs_sub_le _ (sumValues (b.expenses.foldl applyExpense
          (b.users.foldl (fun m u => mapSet m u 0) []))) 0 |>.trans (by simp)
    _ ≤ b.expenses.length * TOL + b.users.length * CLAMP := by linarith

/-- C2 amended: for every reachable ledger the sum of the net balances is
within (number of expenses) * 0.01 + (number of users) * 1e-9 of zero: each
exact-split expense may leave up to the 0.01 share tolerance behind, and the
final clamp may move each of the (at most one per user) entries by up to
1e-9.  The bound 1e-6 claimed by the spec does not hold in general. -/
theorem C2_conservation_bound (b : Book) (h : Reachable b) :
    |sumValues (computeNet b)| ≤
      b.expenses.length * TOL + b.users.length * CLAMP :=
  sumValues_computeNet_bound b h

/-- C2 witness: the amended bound instantiated on the reachable
one-expense, two-user ledger above. -/
theorem C2_conservation_bound_witness :
    |sumValues (computeNet ⟨["A", "B"], [⟨"A", 10, [("B", 999 / 100)]⟩]⟩)| ≤
      (([⟨"A", 10, [("B", 999 / 100)]⟩] : List Expense)).length * TOL +
      (["A", "B"] : List String).length * CLAMP :=
  C2_conservation_bound _ reachable_bMismatch

/-! ### The settlement loop: extraction, termination, transaction count -/

theorem popMaxC_eq_none {l : List Node} : popMaxC l = none ↔ l = [] := by
  cases l with
  | nil => simp [popMaxC]
  | cons x xs =>
    constructor
    · intro h
      simp only [popMaxC] at h
      split at h
      · exact Option.noConfusion h
      · split at h <;> exact Option.noConfusion h
    · intro h
      exact List.noConfusion h

theorem popMaxD_eq_none {l : List Node} : popMaxD l = none ↔ l = [] := by
  cases l with
  | nil => simp [popMaxD]
  | cons x xs =>
    constructor
    · intro h
      simp only [popMaxD] at h
      split at h
      · exact Option.noConfusion h
      · split at h <;> exact Option.noConfusion h
    · intro h
      exact List.noConfusion h

theorem popMaxC_perm {l : List Node} {n : Node} {r : List Node}
    (h : popMaxC l = some (n, r)) : l.Perm (n :: r) := by
  induction l generalizing n r with
  | nil => exact Option.noConfusion h
  | cons x xs ih =>
    simp only [popMaxC] at h
    split at h
    · rename_i heq
      injection h with h'
      injection h' with h1 h2
      subst h1
      subst h2
      obtain rfl : xs = [] := popMaxC_eq_none.mp heq
      exact List.Perm.refl _
    · rename_i y ys heq
      split at h
      · injection h with h'
        injection h' with h1 h2
        subst h1
        subst h2
        exact ((ih heq).cons x).trans (List.Perm.swap y x ys)
      · injection h with h'
        injection h' with h1 h2
        subst h1
        subst h2
        exact List.Perm.refl _

theorem popMaxD_perm {l : List Node} {n : Node} {r : List Node}
    (h : popMaxD l = some (n, r)) : l.Perm (n :: r) := by
  induction l generalizing n r with
  | nil => exact Option.noConfusion h
  | cons x xs ih =>
    simp only [popMaxD] at h
    split at h
    · rename_i heq
      injection h with h'
      injection h' with h1 h2
      subst h1
      subst h2
      obtain rfl : xs = [] := popMaxD_eq_none.mp heq
      exact List.Perm.refl _
    · rename_i y ys heq
      split at h
      · injection h with h'
        injection h' with h1 h2
        subst h1
        subst h2
        exact ((ih heq).cons x).trans (List.Perm.swap y x ys)
      · injection h with h'
        injection h' with h1 h2
        subst h1
        subst h2
        exact List.Perm.refl _

theorem settleStep_none_left (D : List Node) : settleStep [] D = none := by
  simp [settleStep, popMaxC]

theorem settleStep_none_right (C : List Node) : settleStep C [] = none := by
  unfold settleStep
  rcases h : popMaxC C with _ | ⟨c, C₁⟩ <;> simp [popMaxD]

theorem settleStep_inv {C D : List Node} {ts : List Txn} {C₂ D₂ : List Node}
    (h : settleStep C D = some (ts, C₂, D₂)) :
    ∃ c C₁ d D₁, popMaxC C = some (c, C₁) ∧ popMaxD D = some (d, D₁) ∧
      (let pay := min c.2 (-d.2)
       ts = (if pay > EPS then [(d.1, c.1, pay)] else []) ∧
       C₂ = (if c.2 - pay > EPS then (c.1, c.2 - pay) :: C₁ else C₁) ∧
       D₂ = (if d.2 + pay < -EPS then (d.1, d.2 + pay) :: D₁ else D₁)) := by
  unfold settleStep at h
  rcases hC : popMaxC C with _ | ⟨c, C₁⟩ <;> rw [hC] at h
  · exact Option.noConfusion h
  · rcases hD : popMaxD D with _ | ⟨d, D₁⟩ <;> rw [hD] at h
    · exact Option.noConfusion h
    · refine ⟨c, C₁, d, D₁, rfl, rfl, ?_, ?_, ?_⟩
      · exact (congrArg (fun x => x.1) (Option.some.inj h)).symm
      · exact (congrArg (fun x => x.2.1) (Option.some.inj h)).symm
      · exact (congrArg (fun x => x.2.2) (Option.some.inj h)).symm

theorem settleStep_decrease {C D : List Node} {ts : List Txn} {C₂ D₂ : List Node}
    (h : settleStep C D = some (ts, C₂, D₂)) :
    C₂.length + D₂.length < C.length + D.length := by
  obtain ⟨c, C₁, d, D₁, hC, hD, hts, hC₂, hD₂⟩ := settleStep_inv h
  have hlC : C.length = C₁.length + 1 := by
    simpa using (popMaxC_perm hC).length_eq
  have hlD : D.length = D₁.length + 1 := by
    simpa using (popMaxD_perm hD).length_eq
  have hC₂len : C₂.length ≤ C₁.length + 1 := by
    rw [hC₂]
    split <;> simp
  have hD₂len : D₂.length ≤ D₁.length + 1 := by
    rw [hD₂]
    split <;> simp
  rcases min_cases c.2 (-d.2) with ⟨hmin, _⟩ | ⟨hmin, _⟩
  · have hCeq : C₂.length = C₁.length := by
      rw [hC₂, hmin, sub_self, if_neg (not_lt.mpr (le_of_lt EPS_pos))]
    omega
  · have hDeq : D₂.length = D₁.length := by
      rw [hD₂, hmin]
      rw [if_neg]
      rw [add_neg_cancel]
      exact not_lt.mpr (neg_nonpos.mpr (le_of_lt EPS_pos))
    omega

theorem settleLoop_empty_of_step_none {fuel : ℕ} {C D : List Node}
    (h : settleStep C D = none) : settleLoop fuel C D = [] := by
  cases fuel with
  | zero => rfl
  | succ f => simp [settleLoop, h]

theorem settleLoop_length_le : ∀ (fuel : ℕ) (C D : List Node),
    C.length + D.length ≤ fuel →
    (settleLoop fuel C D).length ≤ C.length + D.length - 1 := by
  intro fuel
  induction fuel with
  | zero => intro C D _; simp [settleLoop]
  | succ f ih =>
    intro C D hle
    rw [settleLoop]
    rcases hs : settleStep C D with _ | ⟨ts, C₂, D₂⟩
    · simp
    · obtain ⟨c, C₁, d, D₁, hC, hD, hts, _, _⟩ := settleStep_inv hs
      have hlC : C.length = C₁.length + 1 := by
        simpa using (popMaxC_perm hC).length_eq
      have hlD : D.length = D₁.length + 1 := by
        simpa using (popMaxD_perm hD).length_eq
      have hdec := settleStep_decrease hs
      have hrec := ih C₂ D₂ (by omega)
      have hts1 : ts.length ≤ 1 := by
        rw [hts]
        split <;> simp
      simp only [List.length_append]
      omega

theorem settleLoop_fuel_irrel :
    ∀ (n : ℕ) (C D : List Node) (f g : ℕ), C.length + D.length ≤ n →
      C.length + D.length ≤ f → C.length + D.length ≤ g →
      settleLoop f C D = settleLoop g C D := by
  intro n
  induction n using Nat.strong_induction_on with
  | _ n ih =>
    intro C D f g hn hf hg
    rcases hs : settleStep C D with _ | ⟨ts, C₂, D₂⟩
    · rw [settleLoop_empty_of_step_none hs, settleLoop_empty_of_step_none hs]
    · have hdec := settleStep_decrease hs
      have hC : C ≠ [] := by
        intro hC
        rw [hC, settleStep_none_left] at hs
        exact Option.noConfusion hs
      have hpos : 1 ≤ C.length + D.length := by
        cases C with
        | nil => exact absurd rfl hC
        | cons _ _ => simp [List.length_cons]; omega
      obtain ⟨f', rfl⟩ : ∃ f', f = f' + 1 := by
        cases f with
        | zero => omega
        | succ f' => exact ⟨f', rfl⟩
      obtain ⟨g', rfl⟩ : ∃ g', g = g' + 1 := by
        cases g with
        | zero => omega
        | succ g' => exact ⟨g', rfl⟩
      rw [settleLoop, settleLoop, hs]
      have := ih (C₂.length + D₂.length) (by omega) C₂ D₂ f' g'
        (le_refl _) (by omega) (by omega)
      exact congrArg (fun l => ts ++ l) this

/-! ### Claim C9 -/

/-- C9: the settlement loop terminates.  First conjunct: every iteration of
the loop (one settleStep) strictly decreases the combined size of the two
priority queues, because pay = min(c.amt, -d.amt) drives at least one of the
two popped nodes to a residual that fails the reinsertion test.  Second
conjunct: consequently fuel equal to the combined size is enough — any
larger fuel computes the same transaction list, i.e. the while-loop of
settle() stops after at most that many iterations. -/
theorem C9_settle_terminates :
    (∀ (C D : List Node) (ts : List Txn) (C₂ D₂ : List Node),
      settleStep C D = some (ts, C₂, D₂) →
      C₂.length + D₂.length < C.length + D.length) ∧
    (∀ (C D : List Node) (f : ℕ), C.length + D.length ≤ f →
      settleLoop f C D = settleLoop (C.length + D.length) C D) :=
  ⟨fun _ _ _ _ _ h => settleStep_decrease h,
   fun C D f hf => settleLoop_fuel_irrel (C.length + D.length) C D f
     (C.length + D.length) (le_refl _) hf (le_refl _)⟩

/-- C9 witness: one concrete step on a creditor of 10 and a debtor of -10
empties both queues, and the loop result is fuel-independent there. -/
theorem C9_settle_terminates_witness :
    settleStep [("A", 10)] [("B", -10)] = some ([("B", "A", (10 : ℚ))], [], []) ∧
    (([] : List Node).length + ([] : List Node).length <
      ([("A", (10 : ℚ))] : List Node).length + ([("B", (-10 : ℚ))] : List Node).length) ∧
    settleLoop 5 [("A", 10)] [("B", -10)] =
      settleLoop (([("A", (10 : ℚ))] : List Node).length +
        ([("B", (-10 : ℚ))] : List Node).length) [("A", 10)] [("B", -10)] :=
  ⟨by with_unfolding_all decide,
   C9_settle_terminates.1 [("A", 10)] [("B", -10)] [("B", "A", 10)] [] []
     (by with_unfolding_all decide),
   C9_settle_terminates.2 [("A", 10)] [("B", -10)] 5 (by decide)⟩

/-! ### Claim C8 -/

/-- C8: the number of transactions settle() produces is at most
(number of creditors with balance > EPS) + (number of debtors with balance
< -EPS) - 1 (natural-number subtraction; with no creditors and no debtors
the loop emits nothing). -/
theorem C8_txn_count_bound (b : Book) :
    (settle b).length ≤
      ((computeNet b).filter (fun p => p.2 > EPS)).length +
      ((computeNet b).filter (fun p => p.2 < -EPS)).length - 1 :=
  settleLoop_length_le _ _ _ (le_refl _)

/-! ### Mass accounting for the settlement loop -/

theorem totalAmt_cons (a : String × ℚ) (t : List (String × ℚ)) :
    totalAmt (a :: t) = a.2 + totalAmt t := by
  simp [totalAmt]

theorem massOf_nonneg {l : List (String × ℚ)} {u : String}
    (h : ∀ p ∈ l, 0 ≤ p.2) : 0 ≤ massOf l u := by
  induction l with
  | nil => simp [massOf]
  | cons a t ih =>
    rw [massOf_cons]
    have h1 : (0 : ℚ) ≤ if a.1 = u then a.2 else 0 := by
      split
      · exact h a (by simp)
      · exact le_refl 0
    have h2 := ih fun p hp => h p (by simp [hp])
    linarith

theorem massOf_le_totalAmt {l : List (String × ℚ)} {u : String}
    (h : ∀ p ∈ l, 0 ≤ p.2) : massOf l u ≤ totalAmt l := by
  induction l with
  | nil => simp [massOf, totalAmt]
  | cons a t ih =>
    rw [massOf_cons, totalAmt_cons]
    have h1 : (if a.1 = u then a.2 else 0) ≤ a.2 := by
      split
      · exact le_refl _
      · exact h a (by simp)
    have h2 := ih fun p hp => h p (by simp [hp])
    linarith

theorem massOf_nonpos {l : List (String × ℚ)} {u : String}
    (h : ∀ p ∈ l, p.2 ≤ 0) : massOf l u ≤ 0 := by
  induction l with
  | nil => simp [massOf]
  | cons a t ih =>
    rw [massOf_cons]
    have h1 : (if a.1 = u then a.2 else 0) ≤ 0 := by
      split
      · exact h a (by simp)
      · exact le_refl 0
    have h2 := ih fun p hp => h p (by simp [hp])
    linarith

theorem totalAmt_le_massOf {l : List (String × ℚ)} {u : String}
    (h : ∀ p ∈ l, p.2 ≤ 0) : totalAmt l ≤ massOf l u := by
  induction l with
  | nil => simp [massOf, totalAmt]
  | cons a t ih =>
    rw [massOf_cons, totalAmt_cons]
    have h1 : a.2 ≤ (if a.1 = u then a.2 else 0) := by
      split
      · exact le_refl _
      · exact h a (by simp)
    have h2 := ih fun p hp => h p (by simp [hp])
    linarith

theorem delta_eq_zero {txns : List Txn} {u : String}
    (h : ∀ t ∈ txns, ¬ t.2.1 = u ∧ ¬ t.1 = u) : delta txns u = 0 := by
  induction txns with
  | nil => rfl
  | cons t ts ih =>
    simp only [delta, if_neg (h t (by simp)).1, if_neg (h t (by simp)).2]
    rw [ih fun x hx => h x (by simp [hx])]
    ring

theorem settleLoop_txn_names : ∀ (fuel : ℕ) (C D : List Node) (t : Txn),
    t ∈ settleLoop fuel C D →
    t.2.1 ∈ C.map Prod.fst ∧ t.1 ∈ D.map Prod.fst := by
  intro fuel
  induction fuel with
  | zero => intro C D t ht; simp [settleLoop] at ht
  | succ f ih =>
    intro C D t ht
    simp only [settleLoop] at ht
    rcases hs : settleStep C D with _ | ⟨ts, C₂, D₂⟩ <;> rw [hs] at ht
    · simp at ht
    · obtain ⟨c, C₁, d, D₁, hC, hD, hts, hC₂, hD₂⟩ := settleStep_inv hs
      have hcC : c.1 ∈ C.map Prod.fst :=
        List.mem_map.mpr ⟨c, (popMaxC_perm hC).mem_iff.mpr (by simp), rfl⟩
      have hdD : d.1 ∈ D.map Prod.fst :=
        List.mem_map.mpr ⟨d, (popMaxD_perm hD).mem_iff.mpr (by simp), rfl⟩
      have hC₁sub : ∀ x ∈ C₁.map Prod.fst, x ∈ C.map Prod.fst := fun x hx => by
        rcases List.mem_map.mp hx with ⟨q, hq, rfl⟩
        exact List.mem_map.mpr ⟨q, (popMaxC_perm hC).mem_iff.mpr (by simp [hq]), rfl⟩
      have hD₁sub : ∀ x ∈ D₁.map Prod.fst, x ∈ D.map Prod.fst := fun x hx => by
        rcases List.mem_map.mp hx with ⟨q, hq, rfl⟩
        exact List.mem_map.mpr ⟨q, (popMaxD_perm hD).mem_iff.mpr (by simp [hq]), rfl⟩
      rcases List.mem_append.mp ht with hmem | hmem
      · rw [hts] at hmem
        split at hmem
        · simp only [List.mem_singleton] at hmem
          subst hmem
          exact ⟨hcC, hdD⟩
        · simp at hmem
      · have hrec := ih C₂ D₂ t hmem
        constructor
        · have h2 := hrec.1
          rw [hC₂] at h2
          split at h2
          · simp only [List.map_cons, List.mem_cons] at h2
            rcases h2 with h2 | h2
            · rw [h2]; exact hcC
            · exact hC₁sub _ h2
          · exact hC₁sub _ h2
        · have h2 := hrec.2
          rw [hD₂] at h2
          split at h2
          · simp only [List.map_cons, List.mem_cons] at h2
            rcases h2 with h2 | h2
            · rw [h2]; exact hdD
            · exact hD₁sub _ h2
          · exact hD₁sub _ h2

/-- Core invariant of the settlement loop: for valid queues (creditors above
EPS, debtors below -EPS, no repeated names) the transactions emitted account
for each user's queued mass up to one dropped sub-EPS residual, the global
imbalance of the queues, and one EPS of drift per node. -/
theorem settleLoop_residual_bound : ∀ (fuel : ℕ) (C D : List Node),
    C.length + D.length ≤ fuel →
    (∀ p ∈ C, EPS < p.2) →
    (∀ p ∈ D, p.2 < -EPS) →
    ((C ++ D).map Prod.fst).Nodup →
    ∀ u, |massOf C u + massOf D u - delta (settleLoop fuel C D) u| ≤
      EPS + |totalAmt C + totalAmt D| +
        ((C.length + D.length : ℕ) : ℚ) * EPS := by
  intro fuel
  induction fuel with
  | zero =>
    intro C D hlen _ _ _ u
    have hC : C = [] := List.length_eq_zero.mp (by omega)
    have hD : D = [] := List.length_eq_zero.mp (by omega)
    subst hC
    subst hD
    simp [settleLoop, massOf, delta, totalAmt]
    exact le_of_lt EPS_pos
  | succ f ih =>
    intro C D hlen hvC hvD hnd u
    rcases hs : settleStep C D with _ | ⟨ts, C₂, D₂⟩
    · rw [settleLoop_empty_of_step_none hs]
      have hdz : delta [] u = 0 := rfl
      rw [hdz, sub_zero]
      have hCD : C = [] ∨ D = [] := by
        by_cases hC0 : C = []
        · exact Or.inl hC0
        · right
          by_contra hD0
          obtain ⟨c, C₁, hc⟩ : ∃ c C₁, popMaxC C = some (c, C₁) := by
            rcases hpc : popMaxC C with _ | ⟨c, C₁⟩
            · exact absurd (popMaxC_eq_none.mp hpc) hC0
            · exact ⟨c, C₁, rfl⟩
          obtain ⟨d, D₁, hd⟩ : ∃ d D₁, popMaxD D = some (d, D₁) := by
            rcases hpd : popMaxD D with _ | ⟨d, D₁⟩
            · exact absurd (popMaxD_eq_none.mp hpd) hD0
            · exact ⟨d, D₁, rfl⟩
          unfold settleStep at hs
          rw [hc, hd] at hs
          exact Option.noConfusion hs
      have habs : |massOf C u + massOf D u| ≤ |totalAmt C + totalAmt D| := by
        rcases hCD with h0 | h0
        · subst h0
          have hm0 : massOf ([] : List Node) u = 0 := rfl
          have ht0 : totalAmt ([] : List Node) = 0 := rfl
          rw [hm0, ht0, zero_add, zero_add]
          have h1 : massOf D u ≤ 0 :=
            massOf_nonpos fun p hp => le_of_lt (by linarith [hvD p hp, EPS_pos])
          have h2 : totalAmt D ≤ massOf D u :=
            totalAmt_le_massOf fun p hp => le_of_lt (by linarith [hvD p hp, EPS_pos])
          rw [abs_of_nonpos h1, abs_of_nonpos (le_trans h2 h1)]
          linarith
        · subst h0
          have hm0 : massOf ([] : List Node) u = 0 := rfl
          have ht0 : totalAmt ([] : List Node) = 0 := rfl
          rw [hm0, ht0, add_zero, add_zero]
          have h1 : 0 ≤ massOf C u :=
            massOf_nonneg fun p hp => le_of_lt (by linarith [hvC p hp, EPS_pos])
          have h2 : massOf C u ≤ totalAmt C :=
            massOf_le_totalAmt fun p hp => le_of_lt (by linarith [hvC p hp, EPS_pos])
          rw [abs_of_nonneg h1, abs_of_nonneg (le_trans h1 h2)]
          linarith
      have hmul : 0 ≤ ((C.length + D.length : ℕ) : ℚ) * EPS :=
        mul_nonneg (by positivity) (le_of_lt EPS_pos)
      linarith [EPS_pos]
    · obtain ⟨c, C₁, d, D₁, hC, hD, hts, hC₂, hD₂⟩ := settleStep_inv hs
      set pay := min c.2 (-d.2) with hpaydef
      have hCperm := popMaxC_perm hC
      have hDperm := popMaxD_perm hD
      have hcC : c ∈ C := hCperm.mem_iff.mpr (by simp)
      have hdD : d ∈ D := hDperm.mem_iff.mpr (by simp)
      have hc2 : EPS < c.2 := hvC c hcC
      have hd2 : d.2 < -EPS := hvD d hdD
      have hpayE : EPS < pay := lt_min hc2 (by linarith)
      have htseq : ts = [(d.1, c.1, pay)] := by rw [hts]; exact if_pos hpayE
      have hlC : C.length = C₁.length + 1 := by simpa using hCperm.length_eq
      have hlD : D.length = D₁.length + 1 := by simpa using hDperm.length_eq
      have hvC₁ : ∀ p ∈ C₁, EPS < p.2 :=
        fun p hp => hvC p (hCperm.mem_iff.mpr (by simp [hp]))
      have hvD₁ : ∀ p ∈ D₁, p.2 < -EPS :=
        fun p hp => hvD p (hDperm.mem_iff.mpr (by simp [hp]))
      have hvC₂ : ∀ p ∈ C₂, EPS < p.2 := by
        rw [hC₂]
        split
        · rename_i hkc
          intro p hp
          rcases List.mem_cons.mp hp with hp | hp
          · rw [hp]
            exact hkc
          · exact hvC₁ p hp
        · exact hvC₁
      have hvD₂ : ∀ p ∈ D₂, p.2 < -EPS := by
        rw [hD₂]
        split
        · rename_i hkd
          intro p hp
          rcases List.mem_cons.mp hp with hp | hp
          · rw [hp]
            exact hkd
          · exact hvD₁ p hp
        · exact hvD₁
      have hndCD : ((c.1 :: C₁.map Prod.fst) ++ (d.1 :: D₁.map Prod.fst)).Nodup := by
        have hperm : ((C ++ D).map Prod.fst).Perm
            ((c.1 :: C₁.map Prod.fst) ++ (d.1 :: D₁.map Prod.fst)) := by
          rw [List.map_append]
          exact List.Perm.append (by simpa using hCperm.map Prod.fst)
            (by simpa using hDperm.map Prod.fst)
        exact hperm.nodup_iff.mp hnd
      rcases List.nodup_append.mp hndCD with ⟨hndC, hndD, hdisj⟩
      have hcC₁ : c.1 ∉ C₁.map Prod.fst := (List.nodup_cons.mp hndC).1
      have hdD₁ : d.1 ∉ D₁.map Prod.fst := (List.nodup_cons.mp hndD).1
      have hcD : c.1 ∉ (d.1 :: D₁.map Prod.fst) := fun hh => hdisj (by simp) hh
      have hdC : d.1 ∉ (c.1 :: C₁.map Prod.fst) := fun hh => hdisj hh (by simp)
      have hcd : ¬ c.1 = d.1 := fun hh => hcD (by simp [hh])
      have hC₂names : ∀ x, x ∈ C₂.map Prod.fst → x ∈ c.1 :: C₁.map Prod.fst := by
        intro x hx
        rw [hC₂] at hx
        split at hx
        · simpa using hx
        · exact List.mem_cons_of_mem _ hx
      have hD₂names : ∀ x, x ∈ D₂.map Prod.fst → x ∈ d.1 :: D₁.map Prod.fst := by
        intro x hx
        rw [hD₂] at hx
        split at hx
        · simpa using hx
        · exact List.mem_cons_of_mem _ hx
      have hnd₂ : ((C₂ ++ D₂).map Prod.fst).Nodup := by
        have hsub : List.Sublist ((C₂ ++ D₂).map Prod.fst)
            ((c.1 :: C₁.map Prod.fst) ++ (d.1 :: D₁.map Prod.fst)) := by
          rw [List.map_append]
          refine List.Sublist.append ?_ ?_
          · rw [hC₂]
            split
            · simp only [List.map_cons]
              exact List.Sublist.refl _
            · exact List.sublist_cons_self _ _
          · rw [hD₂]
            split
            · simp only [List.map_cons]
              exact List.Sublist.refl _
            · exact List.sublist_cons_self _ _
        exact hsub.nodup hndCD
      have hlen₂ : C₂.length + D₂.length ≤ f := by
        have := settleStep_decrease hs
        omega
      have IH := ih C₂ D₂ hlen₂ hvC₂ hvD₂ hnd₂ u
      simp only [settleLoop, hs]
      rw [htseq, List.singleton_append]
      have hdelta : delta ((d.1, c.1, pay) :: settleLoop f C₂ D₂) u =
          (if c.1 = u then pay else 0) - (if d.1 = u then pay else 0) +
            delta (settleLoop f C₂ D₂) u := rfl
      rw [hdelta]
      have hmC : massOf C u = (if c.1 = u then c.2 else 0) + massOf C₁ u := by
        rw [massOf_perm hCperm u, massOf_cons]
      have hmD : massOf D u = (if d.1 = u then d.2 else 0) + massOf D₁ u := by
        rw [massOf_perm hDperm u, massOf_cons]
      have htC : totalAmt C = c.2 + totalAmt C₁ := by
        rw [totalAmt_perm hCperm, totalAmt_cons]
      have htD : totalAmt D = d.2 + totalAmt D₁ := by
        rw [totalAmt_perm hDperm, totalAmt_cons]
      have hpayc : pay ≤ c.2 := min_le_left _ _
      have hpayd : pay ≤ -d.2 := min_le_right _ _
      have hndrop : ¬ (EPS < c.2 - pay ∧ d.2 + pay < -EPS) := by
        rcases min_choice c.2 (-d.2) with hmin | hmin
        · rw [← hpaydef] at hmin
          intro hh
          rw [hmin] at hh
          simp at hh
          linarith [EPS_pos, hh.1]
        · rw [← hpaydef] at hmin
          intro hh
          rw [hmin] at hh
          have : d.2 + -d.2 < -EPS := hh.2
          simp at this
          linarith [EPS_pos]
      have hSabs : 0 ≤ |totalAmt C + totalAmt D| := abs_nonneg _
      have hmulCD : 0 ≤ ((C.length + D.length : ℕ) : ℚ) * EPS :=
        mul_nonneg (by positivity) (le_of_lt EPS_pos)
      by_cases hA1 : (¬ EPS < c.2 - pay) ∧ c.1 = u
      · obtain ⟨hkc, hcu⟩ := hA1
        have hC₂eq : C₂ = C₁ := by rw [hC₂, if_neg hkc]
        have hmC₁ : massOf C₁ u = 0 :=
          massOf_eq_zero fun p hp hh =>
            hcC₁ (List.mem_map.mpr ⟨p, hp, by rw [hh, ← hcu]⟩)
        have hmDu : massOf D u = 0 := by
          refine massOf_eq_zero fun p hp hh => hcD ?_
          have hin : c.1 ∈ D.map Prod.fst :=
            List.mem_map.mpr ⟨p, hp, by rw [hh, ← hcu]⟩
          have hDn : (D.map Prod.fst).Perm (d.1 :: D₁.map Prod.fst) := by
            simpa using hDperm.map Prod.fst
          exact hDn.mem_iff.mp hin
        have hdrec : delta (settleLoop f C₂ D₂) u = 0 := by
          refine delta_eq_zero fun t ht => ?_
          have hnames := settleLoop_txn_names f C₂ D₂ t ht
          constructor
          · intro hh
            have h1 : u ∈ C₂.map Prod.fst := hh ▸ hnames.1
            rw [hC₂eq] at h1
            exact hcC₁ (by rwa [← hcu] at h1)
          · intro hh
            have h1 : u ∈ D₂.map Prod.fst := hh ▸ hnames.2
            have h2 : u ∈ d.1 :: D₁.map Prod.fst := hD₂names u h1
            exact hcD (by rwa [← hcu] at h2)
        have hifd : (if d.1 = u then pay else 0) = 0 := by
          rw [if_neg]
          intro hh
          exact hcd (hcu.trans hh.symm)
        have hval : massOf C u + massOf D u -
            ((if c.1 = u then pay else 0) - (if d.1 = u then pay else 0) +
              delta (settleLoop f C₂ D₂) u) = c.2 - pay := by
          rw [hmC, hmDu, hmC₁, hdrec, hifd, if_pos hcu, if_pos hcu]
          ring
        rw [hval, abs_of_nonneg (by linarith)]
        have h2 : c.2 - pay ≤ EPS := not_lt.mp hkc
        linarith
      · by_cases hA2 : (¬ d.2 + pay < -EPS) ∧ d.1 = u
        · obtain ⟨hkd, hdu⟩ := hA2
          have hD₂eq : D₂ = D₁ := by rw [hD₂, if_neg hkd]
          have hmD₁ : massOf D₁ u = 0 :=
            massOf_eq_zero fun p hp hh =>
              hdD₁ (List.mem_map.mpr ⟨p, hp, by rw [hh, ← hdu]⟩)
          have hmCu : massOf C u = 0 := by
            refine massOf_eq_zero fun p hp hh => hdC ?_
            have hin : d.1 ∈ C.map Prod.fst :=
              List.mem_map.mpr ⟨p, hp, by rw [hh, ← hdu]⟩
            have hCn : (C.map Prod.fst).Perm (c.1 :: C₁.map Prod.fst) := by
              simpa using hCperm.map Prod.fst
            exact hCn.mem_iff.mp hin
          have hdrec : delta (settleLoop f C₂ D₂) u = 0 := by
            refine delta_eq_zero fun t ht => ?_
            have hnames := settleLoop_txn_names f C₂ D₂ t ht
            constructor
            · intro hh
              have h1 : u ∈ C₂.map Prod.fst := hh ▸ hnames.1
              have h2 : u ∈ c.1 :: C₁.map Prod.fst := hC₂names u h1
              exact hdC (by rwa [← hdu] at h2)
            · intro hh
              have h1 : u ∈ D₂.map Prod.fst := hh ▸ hnames.2
              rw [hD₂eq] at h1
              exact hdD₁ (by rwa [← hdu] at h1)
          have hifc : (if c.1 = u then pay else 0) = 0 := by
            rw [if_neg]
            intro hh
            exact hcd (hh.trans hdu.symm)
          have hval : massOf C u + massOf D u -
              ((if c.1 = u then pay else 0) - (if d.1 = u then pay else 0) +
                delta (settleLoop f C₂ D₂) u) = d.2 + pay := by
            rw [hmD, hmCu, hmD₁, hdrec, hifc, if_pos hdu, if_pos hdu]
            ring
          rw [hval, abs_of_nonpos (by linarith)]
          have h2 : -EPS ≤ d.2 + pay := not_lt.mp hkd
          linarith
        · have hB1 : massOf C u - (if c.1 = u then pay else 0) = massOf C₂ u := by
            by_cases hcu : c.1 = u
            · have hkc : EPS < c.2 - pay := by
                by_contra hkc
                exact hA1 ⟨hkc, hcu⟩
              rw [hC₂, if_pos hkc, massOf_cons, hmC, if_pos hcu]
              simp only [if_pos hcu]
              ring
            · rw [hmC, if_neg hcu, if_neg hcu, hC₂]
              split
              · rw [massOf_cons]
                simp only [if_neg hcu]
                ring
              · ring
          have hB2 : massOf D u + (if d.1 = u then pay else 0) = massOf D₂ u := by
            by_cases hdu : d.1 = u
            · have hkd : d.2 + pay < -EPS := by
                by_contra hkd
                exact hA2 ⟨hkd, hdu⟩
              rw [hD₂, if_pos hkd, massOf_cons, hmD, if_pos hdu]
              simp only [if_pos hdu]
              ring
            · rw [hmD, if_neg hdu, if_neg hdu, hD₂]
              split
              · rw [massOf_cons]
                simp only [if_neg hdu]
                ring
              · ring
          have hinner : massOf C u + massOf D u -
              ((if c.1 = u then pay else 0) - (if d.1 = u then pay else 0) +
                delta (settleLoop f C₂ D₂) u) =
              massOf C₂ u + massOf D₂ u - delta (settleLoop f C₂ D₂) u := by
            rw [← hB1, ← hB2]
            ring
          rw [hinner]
          refine le_trans IH ?_
          by_cases hkc : EPS < c.2 - pay <;> by_cases hkd : d.2 + pay < -EPS
          · exact absurd ⟨hkc, hkd⟩ hndrop
          · have htC₂ : totalAmt C₂ = (c.2 - pay) + totalAmt C₁ := by
              rw [hC₂, if_pos hkc, totalAmt_cons]
            have htD₂ : totalAmt D₂ = totalAmt D₁ := by rw [hD₂, if_neg hkd]
            have hlC₂ : C₂.length = C₁.length + 1 := by
              rw [hC₂, if_pos hkc]
              rfl
            have hlD₂ : D₂.length = D₁.length := by rw [hD₂, if_neg hkd]
            have hrd : -EPS ≤ d.2 + pay := not_lt.mp hkd
            have habs : |totalAmt C₂ + totalAmt D₂| ≤
                |totalAmt C + totalAmt D| + EPS := by
              have hSrel : totalAmt C₂ + totalAmt D₂ =
                  (totalAmt C + totalAmt D) + (-(d.2 + pay)) := by
                rw [htC₂, htD₂, htC, htD]
                ring
              rw [hSrel]
              refine le_trans (abs_add _ _) ?_
              have : |-(d.2 + pay)| ≤ EPS := by
                rw [abs_neg]
                exact abs_le.mpr ⟨hrd, by linarith⟩
              linarith
            have hlenq : ((C₂.length + D₂.length : ℕ) : ℚ) * EPS + EPS =
                ((C.length + D.length : ℕ) : ℚ) * EPS := by
              rw [hlC₂, hlD₂, hlC, hlD]
              push_cast
              ring
            linarith
          · have htC₂ : totalAmt C₂ = totalAmt C₁ := by rw [hC₂, if_neg hkc]
            have htD₂ : totalAmt D₂ = (d.2 + pay) + totalAmt D₁ := by
              rw [hD₂, if_pos hkd, totalAmt_cons]
            have hlC₂ : C₂.length = C₁.length := by rw [hC₂, if_neg hkc]
            have hlD₂ : D₂.length = D₁.length + 1 := by
              rw [hD₂, if_pos hkd]
              rfl
            have hrc : c.2 - pay ≤ EPS := not_lt.mp hkc
            have habs : |totalAmt C₂ + totalAmt D₂| ≤
                |totalAmt C + totalAmt D| + EPS := by
              have hSrel : totalAmt C₂ + totalAmt D₂ =
                  (totalAmt C + totalAmt D) + (-(c.2 - pay)) := by
                rw [htC₂, htD₂, htC, htD]
                ring
              rw [hSrel]
              refine le_trans (abs_add _ _) ?_
              have : |-(c.2 - pay)| ≤ EPS := by
                rw [abs_neg]
                exact abs_le.mpr ⟨by linarith, hrc⟩
              linarith
            have hlenq : ((C₂.length + D₂.length : ℕ) : ℚ) * EPS + EPS =
                ((C.length + D.length : ℕ) : ℚ) * EPS := by
              rw [hlC₂, hlD₂, hlC, hlD]
              push_cast
              ring
            linarith
          · have htC₂ : totalAmt C₂ = totalAmt C₁ := by rw [hC₂, if_neg hkc]
            have htD₂ : totalAmt D₂ = totalAmt D₁ := by rw [hD₂, if_neg hkd]
            have hlC₂ : C₂.length = C₁.length := by rw [hC₂, if_neg hkc]
            have hlD₂ : D₂.length = D₁.length := by rw [hD₂, if_neg hkd]
            have hrc : c.2 - pay ≤ EPS := not_lt.mp hkc
            have hrd : -EPS ≤ d.2 + pay := not_lt.mp hkd
            have habs : |totalAmt C₂ + totalAmt D₂| ≤
                |totalAmt C + totalAmt D| + EPS + EPS := by
              have hSrel : totalAmt C₂ + totalAmt D₂ =
                  (totalAmt C + totalAmt D) + (-(c.2 - pay)) + (-(d.2 + pay)) := by
                rw [htC₂, htD₂, htC, htD]
                ring
              rw [hSrel]
              refine le_trans (abs_add _ _) ?_
              have h1 : |-(d.2 + pay)| ≤ EPS := by
                rw [abs_neg]
                exact abs_le.mpr ⟨hrd, by linarith⟩
              have h2 : |(totalAmt C + totalAmt D) + (-(c.2 - pay))| ≤
                  |totalAmt C + totalAmt D| + EPS := by
                refine le_trans (abs_add _ _) ?_
                have : |-(c.2 - pay)| ≤ EPS := by
                  rw [abs_neg]
                  exact abs_le.mpr ⟨by linarith, hrc⟩
                linarith
              linarith
            have hlenq : ((C₂.length + D₂.length : ℕ) : ℚ) * EPS + EPS + EPS =
                ((C.length + D.length : ℕ) : ℚ) * EPS := by
              rw [hlC₂, hlD₂, hlC, hlD]
              push_cast
              ring
            linarith

/-! ### From computeNet to the settlement queues -/

theorem mapSorted_clampMap {m : List (String × ℚ)} (h : MapSorted m) :
    MapSorted (clampMap m) := by
  unfold clampMap MapSorted
  rw [List.pairwise_map]
  exact h

theorem mapSorted_foldl_applyExpense {m : List (String × ℚ)}
    (h : MapSorted m) (es : List Expense) :
    MapSorted (es.foldl applyExpense m) := by
  induction es generalizing m with
  | nil => exact h
  | cons e es ih => exact ih (mapSorted_applyExpense h e)

theorem mapSorted_computeNet (b : Book) : MapSorted (computeNet b) :=
  mapSorted_clampMap (mapSorted_foldl_applyExpense (mapSorted_initNet b.users) _)

theorem mapSorted_keys_nodup {m : List (String × ℚ)} (h : MapSorted m) :
    (m.map Prod.fst).Nodup := by
  have h1 : (m.map Prod.fst).Pairwise (· < ·) :=
    List.Pairwise.map Prod.fst (fun _ _ hab => hab) h
  exact h1.imp ne_of_lt

theorem mapFind_none_forall {m : List (String × ℚ)} {u : String}
    (h : mapFind m u = none) : ∀ q ∈ m, ¬ q.1 = u := by
  induction m with
  | nil => simp
  | cons a t ih =>
    simp only [mapFind] at h
    split at h
    · exact Option.noConfusion h
    · rename_i hne
      intro q hq
      rcases List.mem_cons.mp hq with hq | hq
      · rw [hq]
        intro hh
        exact hne hh.symm
      · exact ih h q hq

theorem mapFind_of_mem_nodup {m : List (String × ℚ)} {u : String} {v : ℚ}
    (hnd : (m.map Prod.fst).Nodup) (h : (u, v) ∈ m) : mapFind m u = some v := by
  induction m with
  | nil => simp at h
  | cons a t ih =>
    rcases List.mem_cons.mp h with h | h
    · rw [← h]
      simp [mapFind]
    · have hau : ¬ u = a.1 := by
        intro hh
        have h1 : a.1 ∈ t.map Prod.fst := List.mem_map.mpr ⟨(u, v), h, hh ▸ rfl⟩
        exact (List.nodup_cons.mp (by simpa using hnd)).1 h1
      simp only [mapFind, if_neg hau]
      exact ih (by simpa using (List.nodup_cons.mp (by simpa using hnd)).2) h

theorem massOf_filter_of_find {net : List (String × ℚ)}
    (hnd : (net.map Prod.fst).Nodup) (p : String × ℚ → Bool) {u : String}
    {v : ℚ} (hf : mapFind net u = some v) :
    massOf (net.filter p) u = if p (u, v) then v else 0 := by
  induction net with
  | nil => exact Option.noConfusion hf
  | cons a t ih =>
    have hnd' : (t.map Prod.fst).Nodup :=
      (List.nodup_cons.mp (by simpa using hnd)).2
    have hhead : a.1 ∉ t.map Prod.fst :=
      (List.nodup_cons.mp (by simpa using hnd)).1
    simp only [mapFind] at hf
    split at hf
    · rename_i hua
      have hv : v = a.2 := (Option.some.inj hf).symm
      have hpair : (u, v) = a := by
        rw [hua, hv]
      have hmt : massOf (t.filter p) u = 0 := by
        refine massOf_eq_zero fun q hq hh => ?_
        have hqt : q ∈ t := (List.mem_filter.mp hq).1
        exact hhead (by
          rw [hua] at hh
          exact List.mem_map.mpr ⟨q, hqt, hh⟩)
      rw [List.filter_cons]
      split
      · rename_i hpa
        rw [massOf_cons, hmt, if_pos hua.symm, hpair, if_pos hpa, hv]
        ring
      · rename_i hpa
        rw [hmt, hpair, if_neg hpa]
    · rename_i hua
      rw [List.filter_cons]
      split
      · rw [massOf_cons, if_neg (fun hh : a.1 = u => hua hh.symm), ih hnd' hf]
        ring
      · exact ih hnd' hf

theorem totalAmt_three_split (net : List (String × ℚ)) :
    totalAmt (net.filter (fun p => p.2 > EPS)) +
    totalAmt (net.filter (fun p => p.2 < -EPS)) +
    totalAmt (net.filter (fun p => ¬ p.2 > EPS ∧ ¬ p.2 < -EPS)) =
    sumValues net := by
  induction net with
  | nil => simp [totalAmt, sumValues]
  | cons a t ih =>
    rw [sumValues, ← ih, List.filter_cons, List.filter_cons, List.filter_cons]
    by_cases h1 : a.2 > EPS
    · have h2 : ¬ a.2 < -EPS := fun h2 => by linarith [EPS_pos]
      rw [if_pos (by simp [h1]), if_neg (by simp [h2]), if_neg (by simp [h1]),
        totalAmt_cons]
      ring
    · by_cases h2 : a.2 < -EPS
      · rw [if_neg (by simp [h1]), if_pos (by simp [h2]), if_neg (by simp [h2]),
          totalAmt_cons]
        ring
      · rw [if_neg (by simp [h1]), if_neg (by simp [h2]),
          if_pos (by simp [h1, h2]), totalAmt_cons]
        ring

theorem length_three_split (net : List (String × ℚ)) :
    (net.filter (fun p => p.2 > EPS)).length +
    (net.filter (fun p => p.2 < -EPS)).length +
    (net.filter (fun p => ¬ p.2 > EPS ∧ ¬ p.2 < -EPS)).length =
    net.length := by
  induction net with
  | nil => simp
  | cons a t ih =>
    rw [List.length_cons, ← ih, List.filter_cons, List.filter_cons,
      List.filter_cons]
    by_cases h1 : a.2 > EPS
    · have h2 : ¬ a.2 < -EPS := fun h2 => by linarith [EPS_pos]
      rw [if_pos (by simp [h1]), if_neg (by simp [h2]), if_neg (by simp [h1])]
      simp only [List.length_cons]
      omega
    · by_cases h2 : a.2 < -EPS
      · rw [if_neg (by simp [h1]), if_pos (by simp [h2]), if_neg (by simp [h2])]
        simp only [List.length_cons]
        omega
      · rw [if_neg (by simp [h1]), if_neg (by simp [h2]),
          if_pos (by simp [h1, h2])]
        simp only [List.length_cons]
        omega

theorem abs_totalAmt_le {l : List (String × ℚ)}
    (h : ∀ q ∈ l, |q.2| ≤ EPS) : |totalAmt l| ≤ l.length * EPS := by
  induction l with
  | nil => simp [totalAmt]
  | cons a t ih =>
    rw [totalAmt_cons]
    have h1 := h a (by simp)
    have h2 := ih fun q hq => h q (by simp [hq])
    calc |a.2 + totalAmt t| ≤ |a.2| + |totalAmt t| := abs_add _ _
      _ ≤ EPS + t.length * EPS := add_le_add h1 h2
      _ = ((t.length + 1 : ℕ) : ℚ) * EPS := by push_cast; ring

/-! ### Claim C1 -/

/-- Helper reachability fact for the C1 witness: the two-user, one-expense
ledger bEq10 is reachable through the public API. -/
theorem reachable_bEq10 : Reachable bEq10 :=
  Reachable.equalSplit bAB bEq10 "A" 10 ["B"]
    (Reachable.user _ "B" (Reachable.user _ "A" Reachable.empty))
    (by with_unfolding_all decide)

/-- C1 counterexample: applying the transactions the way the claim states —
subtracting each amount from the payer from-side and adding it to the payee
to-side — moves balances away from zero.  On the ledger where A paid 10 owed
by B, settle returns (from B, to A, 10); the claim-side application gives A
the balance 10 + 10 = 20, which is not within EPS of zero (the code itself
subtracts from the creditor and adds to the debtor). -/
theorem C1_counterexample_inverted_application :
    settle bEq10 = [("B", "A", 10)] ∧
    findD (computeNet bEq10) "A" + delta (settle bEq10) "A" = 20 ∧
    ¬ (|findD (computeNet bEq10) "A" + delta (settle bEq10) "A"| ≤ EPS) := by
  with_unfolding_all decide

/-- C1 amended: for every reachable ledger, applying the transaction list of
settle() back to the balances of computeNet() with the orientation the code
uses (each amount is added to the from-side debtor and subtracted from the
to-side creditor, i.e. the residual of user u is net(u) - delta(u) with
delta = received minus paid) reduces every balance to within
EPS + E*0.01 + U*(1e-9 + EPS) of zero, where E is the number of expenses and
U the number of users — not to within EPS as claimed: the exact-split
tolerance, the clamp and the sub-EPS residuals the loop drops all accumulate
in the final balances. -/
theorem C1_settle_residual_bound (b : Book) (h : Reachable b) : ∀ u : String,
    |findD (computeNet b) u - delta (settle b) u| ≤
      EPS + b.expenses.length * TOL + b.users.length * (CLAMP + EPS) := by
  intro u
  have hsorted : MapSorted (computeNet b) := mapSorted_computeNet b
  have hnd : ((computeNet b).map Prod.fst).Nodup := mapSorted_keys_nodup hsorted
  set net := computeNet b with hnetdef
  set cred := net.filter (fun p => p.2 > EPS) with hcreddef
  set debt := net.filter (fun p => p.2 < -EPS) with hdebtdef
  set small := net.filter (fun p => ¬ p.2 > EPS ∧ ¬ p.2 < -EPS) with hsmalldef
  have hsettle : settle b = settleLoop (cred.length + debt.length) cred debt := rfl
  have hvC : ∀ p ∈ cred, EPS < p.2 := by
    intro p hp
    have := (List.mem_filter.mp hp).2
    simpa using this
  have hvD : ∀ p ∈ debt, p.2 < -EPS := by
    intro p hp
    have := (List.mem_filter.mp hp).2
    simpa using this
  have hcredsub : ∀ q ∈ cred, q ∈ net := fun q hq => (List.mem_filter.mp hq).1
  have hdebtsub : ∀ q ∈ debt, q ∈ net := fun q hq => (List.mem_filter.mp hq).1
  have hndC : (cred.map Prod.fst).Nodup :=
    ((List.filter_sublist _).map Prod.fst).nodup hnd
  have hndD : (debt.map Prod.fst).Nodup :=
    ((List.filter_sublist _).map Prod.fst).nodup hnd
  have hentry : ∀ q : String × ℚ, q ∈ net → mapFind net q.1 = some q.2 := by
    intro q hq
    have hq' : (q.1, q.2) ∈ net := by simpa using hq
    exact mapFind_of_mem_nodup hnd hq'
  have hdisj : (cred.map Prod.fst).Disjoint (debt.map Prod.fst) := by
    intro x hx1 hx2
    rcases List.mem_map.mp hx1 with ⟨q1, hq1, rfl⟩
    rcases List.mem_map.mp hx2 with ⟨q2, hq2, heq⟩
    have hf1 := hentry q1 (hcredsub q1 hq1)
    have hf2 := hentry q2 (hdebtsub q2 hq2)
    rw [heq] at hf2
    have hval : q1.2 = q2.2 := Option.some.inj (hf1.symm.trans hf2)
    have h1 := hvC q1 hq1
    have h2 := hvD q2 hq2
    rw [hval] at h1
    linarith [EPS_pos]
  have hndCD : ((cred ++ debt).map Prod.fst).Nodup := by
    rw [List.map_append]
    exact List.Nodup.append hndC hndD hdisj
  have MAIN := settleLoop_residual_bound (cred.length + debt.length) cred debt
    (le_refl _) hvC hvD hndCD u
  rw [← hsettle] at MAIN
  have hsumnet : |sumValues net| ≤
      b.expenses.length * TOL + b.users.length * CLAMP :=
    sumValues_computeNet_bound b h
  have hsmallEPS : ∀ q ∈ small, |q.2| ≤ EPS := by
    intro q hq
    have hcond := (List.mem_filter.mp hq).2
    simp only [decide_eq_true_eq] at hcond
    exact abs_le.mpr ⟨not_lt.mp hcond.2, not_lt.mp hcond.1⟩
  have habs_small : |totalAmt small| ≤ small.length * EPS :=
    abs_totalAmt_le hsmallEPS
  have hsplitT := totalAmt_three_split net
  have hsplitL := length_three_split net
  rw [← hcreddef, ← hdebtdef, ← hsmalldef] at hsplitT hsplitL
  have hnetlen : net.length ≤ b.users.length := computeNet_length_le h
  have hS : |totalAmt cred + totalAmt debt| ≤
      b.expenses.length * TOL + b.users.length * CLAMP +
        small.length * EPS := by
    have heq : totalAmt cred + totalAmt debt =
        sumValues net + (-(totalAmt small)) := by
      linarith [hsplitT]
    rw [heq]
    refine le_trans (abs_add _ _) ?_
    rw [abs_neg]
    linarith
  have hlenQ : ((cred.length + debt.length : ℕ) : ℚ) * EPS +
      (small.length : ℚ) * EPS ≤ (b.users.length : ℚ) * EPS := by
    have hle0 : cred.length + debt.length + small.length ≤ b.users.length := by
      omega
    have hle : ((cred.length + debt.length + small.length : ℕ) : ℚ) ≤
        (b.users.length : ℚ) := by exact_mod_cast hle0
    calc ((cred.length + debt.length : ℕ) : ℚ) * EPS +
        (small.length : ℚ) * EPS
        = ((cred.length + debt.length + small.length : ℕ) : ℚ) * EPS := by
          push_cast
          ring
      _ ≤ (b.users.length : ℚ) * EPS :=
          mul_le_mul_of_nonneg_right hle (le_of_lt EPS_pos)
  have hBOUND : EPS + |totalAmt cred + totalAmt debt| +
      ((cred.length + debt.length : ℕ) : ℚ) * EPS ≤
      EPS + b.expenses.length * TOL + b.users.length * (CLAMP + EPS) := by
    have hdist : (b.users.length : ℚ) * (CLAMP + EPS) =
        b.users.length * CLAMP + b.users.length * EPS := by ring
    have hsm : 0 ≤ (small.length : ℚ) * EPS :=
      mul_nonneg (by positivity) (le_of_lt EPS_pos)
    linarith
  have hb1 : 0 ≤ (b.expenses.length : ℚ) * TOL :=
    mul_nonneg (by positivity) TOL_nonneg
  have hb2 : 0 ≤ (b.users.length : ℚ) * (CLAMP + EPS) :=
    mul_nonneg (by positivity) (by linarith [CLAMP_nonneg, EPS_pos])
  rcases hfind : mapFind net u with _ | v
  · have hforall := mapFind_none_forall hfind
    have hdelta0 : delta (settle b) u = 0 := by
      refine delta_eq_zero fun t ht => ?_
      have hnm := settleLoop_txn_names _ cred debt t (hsettle ▸ ht)
      constructor
      · intro hh
        rcases List.mem_map.mp (hh ▸ hnm.1) with ⟨q, hq, hqe⟩
        exact hforall q (hcredsub q hq) hqe
      · intro hh
        rcases List.mem_map.mp (hh ▸ hnm.2) with ⟨q, hq, hqe⟩
        exact hforall q (hdebtsub q hq) hqe
    rw [findD, hfind, hdelta0]
    simp only [Option.getD_none, sub_zero, abs_zero]
    linarith [EPS_pos]
  · have hmassC := massOf_filter_of_find hnd (fun p => p.2 > EPS) hfind
    have hmassD := massOf_filter_of_find hnd (fun p => p.2 < -EPS) hfind
    rw [← hcreddef] at hmassC
    rw [← hdebtdef] at hmassD
    have hfindD : findD net u = v := by rw [findD, hfind]; rfl
    by_cases hv1 : EPS < v
    · have hmC : massOf cred u = v := by
        rw [hmassC]
        simp [hv1]
      have hmD : massOf debt u = 0 := by
        rw [hmassD]
        have hnv : ¬ v < -EPS := by linarith [EPS_pos]
        simp [hnv]
      rw [hfindD]
      have hrw : |v - delta (settle b) u| =
          |massOf cred u + massOf debt u - delta (settle b) u| := by
        rw [hmC, hmD, add_zero]
      rw [hrw]
      exact le_trans MAIN hBOUND
    · by_cases hv2 : v < -EPS
      · have hmC : massOf cred u = 0 := by
          rw [hmassC]
          have hnv : ¬ v > EPS := by linarith [EPS_pos]
          simp [hnv]
        have hmD : massOf debt u = v := by
          rw [hmassD]
          simp [hv2]
        rw [hfindD]
        have hrw : |v - delta (settle b) u| =
            |massOf cred u + massOf debt u - delta (settle b) u| := by
          rw [hmC, hmD, zero_add]
        rw [hrw]
        exact le_trans MAIN hBOUND
      · have hnotin : ∀ q : String × ℚ, q ∈ cred ∨ q ∈ debt → ¬ q.1 = u := by
          intro q hq hh
          rcases hq with hq | hq
          · have hf := hentry q (hcredsub q hq)
            rw [hh, hfind] at hf
            have hv : q.2 = v := Option.some.inj hf.symm
            have := hvC q hq
            rw [hv] at this
            exact hv1 this
          · have hf := hentry q (hdebtsub q hq)
            rw [hh, hfind] at hf
            have hv : q.2 = v := Option.some.inj hf.symm
            have := hvD q hq
            rw [hv] at this
            exact hv2 this
        have hdelta0 : delta (settle b) u = 0 := by
          refine delta_eq_zero fun t ht => ?_
          have hnm := settleLoop_txn_names _ cred debt t (hsettle ▸ ht)
          constructor
          · intro hh
            rcases List.mem_map.mp (hh ▸ hnm.1) with ⟨q, hq, hqe⟩
            exact hnotin q (Or.inl hq) hqe
          · intro hh
            rcases List.mem_map.mp (hh ▸ hnm.2) with ⟨q, hq, hqe⟩
            exact hnotin q (Or.inr hq) hqe
        rw [hfindD, hdelta0, sub_zero]
        have hvsmall : |v| ≤ EPS := abs_le.mpr ⟨not_lt.mp hv2, not_lt.mp hv1⟩
        linarith

/-- C1 witness: the amended residual bound instantiated for user A on the
reachable two-user ledger where A paid 10 owed by B. -/
theorem C1_settle_residual_bound_witness :
    |findD (computeNet bEq10) "A" - delta (settle bEq10) "A"| ≤
      EPS + (bEq10.expenses.length : ℚ) * TOL +
        (bEq10.users.length : ℚ) * (CLAMP + EPS) :=
  C1_settle_residual_bound bEq10 reachable_bEq10 "A"

/-! ### Character classes and stream-splitting helpers for the round-trip -/

theorem not_isWs_of_isDigit {c : Char} (h : c.isDigit = true) : isWs c = false := by
  simp only [isWs, decide_eq_false_iff_not]
  rintro (rfl | rfl | rfl | rfl) <;> exact absurd h (by decide)

theorem digit_ne_marks {c : Char} (h : c.isDigit = true) :
    c ≠ '-' ∧ c ≠ '+' ∧ c ≠ '.' := by
  refine ⟨?_, ?_, ?_⟩ <;> rintro rfl <;> exact absurd h (by decide)

theorem takeWhile_append_stop {p : Char → Bool} (l : List Char) (c : Char)
    (r : List Char) (hl : ∀ x ∈ l, p x = true) (hc : p c = false) :
    (l ++ c :: r).takeWhile p = l := by
  induction l with
  | nil => simp [List.takeWhile_cons, hc]
  | cons a t ih =>
    have ha : p a = true := hl a (by simp)
    rw [List.cons_append, List.takeWhile_cons, if_pos ha]
    exact congrArg (List.cons a) (ih fun x hx => hl x (by simp [hx]))

theorem dropWhile_append_stop {p : Char → Bool} (l : List Char) (c : Char)
    (r : List Char) (hl : ∀ x ∈ l, p x = true) (hc : p c = false) :
    (l ++ c :: r).dropWhile p = c :: r := by
  induction l with
  | nil => simp [List.dropWhile_cons, hc]
  | cons a t ih =>
    have ha : p a = true := hl a (by simp)
    rw [List.cons_append, List.dropWhile_cons, if_pos ha]
    exact ih fun x hx => hl x (by simp [hx])

theorem dropWhile_of_all {p : Char → Bool} (l r : List Char)
    (hl : ∀ x ∈ l, p x = true) : (l ++ r).dropWhile p = r.dropWhile p := by
  induction l with
  | nil => simp
  | cons a t ih =>
    have ha : p a = true := hl a (by simp)
    rw [List.cons_append, List.dropWhile_cons, if_pos ha]
    exact ih fun x hx => hl x (by simp [hx])

/-! ### Digit strings: printing then reading is the identity -/

theorem natOfDigits_append (l : List Char) (c : Char) :
    natOfDigits (l ++ [c]) = digitVal c + natOfDigits l * 10 := by
  induction l with
  | nil => simp [natOfDigits]
  | cons a t ih =>
    rw [List.cons_append]
    show natOfDigits (t ++ [c]) + digitVal a * 10 ^ (t ++ [c]).length =
      digitVal c + (natOfDigits t + digitVal a * 10 ^ t.length) * 10
    rw [ih, List.length_append, List.length_singleton]
    ring

theorem natDigsF_small {f n : ℕ} (h : n < 10) :
    natDigsF (f + 1) n = [Char.ofNat (48 + n)] := by
  simp [natDigsF, h]

theorem digit_char_spec {n : ℕ} (h : n < 10) :
    (Char.ofNat (48 + n)).isDigit = true ∧ digitVal (Char.ofNat (48 + n)) = n := by
  interval_cases n <;> exact ⟨by decide, by decide⟩

theorem natDigsF_spec_small {f n : ℕ} (h : n < 10) :
    natDigsF (f + 1) n ≠ [] ∧ (∀ c ∈ natDigsF (f + 1) n, c.isDigit = true) ∧
      natOfDigits (natDigsF (f + 1) n) = n := by
  rw [natDigsF_small h]
  refine ⟨by simp, fun c hc => ?_, by simp [natOfDigits, (digit_char_spec h).2]⟩
  rw [List.mem_singleton] at hc
  subst hc
  exact (digit_char_spec h).1

theorem natDigsF_spec (f : ℕ) : ∀ n : ℕ, n < 10 ^ (f + 1) →
    natDigsF (f + 1) n ≠ [] ∧ (∀ c ∈ natDigsF (f + 1) n, c.isDigit = true) ∧
      natOfDigits (natDigsF (f + 1) n) = n := by
  induction f with
  | zero =>
    intro n hn
    exact natDigsF_spec_small (by simpa using hn)
  | succ f ih =>
    intro n hn
    by_cases h10 : n < 10
    · exact natDigsF_spec_small h10
    · have hstep : natDigsF (f + 1 + 1) n =
          natDigsF (f + 1) (n / 10) ++ [Char.ofNat (48 + n % 10)] := by
        simp [natDigsF, h10]
      have hdiv : n / 10 < 10 ^ (f + 1) := by
        rw [Nat.div_lt_iff_lt_mul (by norm_num : 0 < 10)]
        exact hn.trans_eq (pow_succ 10 (f + 1))
      obtain ⟨hne, hdig, hval⟩ := ih (n / 10) hdiv
      have hm10 : n % 10 < 10 := Nat.mod_lt _ (by norm_num)
      rw [hstep]
      refine ⟨by simp, fun c hc => ?_, ?_⟩
      · rw [List.mem_append, List.mem_singleton] at hc
        rcases hc with hc | hc
        · exact hdig c hc
        · subst hc
          exact (digit_char_spec hm10).1
      · rw [natOfDigits_append, hval, (digit_char_spec hm10).2]
        omega

theorem natDigs_spec (n : ℕ) :
    natDigs n ≠ [] ∧ (∀ c ∈ natDigs n, c.isDigit = true) ∧
      natOfDigits (natDigs n) = n := by
  have h : n < 10 ^ (n + 1) :=
    (Nat.lt_pow_self (by norm_num) n).trans_le
      (Nat.pow_le_pow_right (by norm_num) (Nat.le_succ n))
  exact natDigsF_spec n n h

theorem natDigs_small {n : ℕ} (h : n < 10) :
    natDigs n = [Char.ofNat (48 + n)] := natDigsF_small h

theorem natDigs_two {n : ℕ} (h1 : 10 ≤ n) (h2 : n < 100) :
    natDigs n = [Char.ofNat (48 + n / 10), Char.ofNat (48 + n % 10)] := by
  have h10 : ¬ n < 10 := by omega
  rw [natDigs]
  have e1 : natDigsF (n + 1) n =
      natDigsF n (n / 10) ++ [Char.ofNat (48 + n % 10)] := by
    simp [natDigsF, h10]
  rw [e1]
  have hd : n / 10 < 10 := by omega
  obtain ⟨m, rfl⟩ : ∃ m, n = m + 1 := ⟨n - 1, by omega⟩
  rw [natDigsF_small hd]
  rfl

/-! ### Exact-consumption lemmas for the primitive stream readers -/

theorem mk_toList (s : String) : String.mk s.toList = s := rfl

theorem readNat_exact (pre : List Char) (hpre : ∀ x ∈ pre, isWs x = true)
    (n : ℕ) (c : Char) (hc : c.isDigit = false) (r : List Char) :
    readNat (pre ++ (natDigs n ++ c :: r)) = some (n, c :: r) := by
  obtain ⟨hne, hdig, hval⟩ := natDigs_spec n
  obtain ⟨d, t, hdt⟩ := List.exists_cons_of_ne_nil hne
  have hd : d.isDigit = true := hdig d (by rw [hdt]; simp)
  have hskip : skipWs (pre ++ (natDigs n ++ c :: r)) = natDigs n ++ c :: r := by
    rw [skipWs, dropWhile_of_all pre _ hpre, hdt, List.cons_append,
      List.dropWhile_cons, if_neg (by simp [not_isWs_of_isDigit hd])]
  simp only [readNat, hskip]
  rw [takeWhile_append_stop (natDigs n) c r hdig hc,
    dropWhile_append_stop (natDigs n) c r hdig hc,
    if_neg (by simp [List.isEmpty_iff, hne]), hval]

theorem readTok_exact (pre : List Char) (hpre : ∀ x ∈ pre, isWs x = true)
    (tok : List Char) (hne : tok ≠ []) (htok : ∀ x ∈ tok, isWs x = false)
    (c : Char) (hc : isWs c = true) (r : List Char) :
    readTok (pre ++ (tok ++ c :: r)) = some (String.mk tok, c :: r) := by
  obtain ⟨d, t, hdt⟩ := List.exists_cons_of_ne_nil hne
  have hd : isWs d = false := htok d (by rw [hdt]; simp)
  have hskip : skipWs (pre ++ (tok ++ c :: r)) = tok ++ c :: r := by
    rw [skipWs, dropWhile_of_all pre _ hpre, hdt, List.cons_append,
      List.dropWhile_cons, if_neg (by simp [hd])]
  simp only [readTok, hskip]
  rw [takeWhile_append_stop tok c r (fun x hx => by simp [htok x hx]) (by simp [hc]),
    dropWhile_append_stop tok c r (fun x hx => by simp [htok x hx]) (by simp [hc]),
    if_neg (by simp [List.isEmpty_iff, hne])]

theorem getline_exact (l : List Char) (hl : ∀ x ∈ l, ¬ x = '\n')
    (r : List Char) : getline (l ++ '\n' :: r) = some (String.mk l, r) := by
  cases l with
  | nil => simp [getline, List.takeWhile_cons, List.dropWhile_cons]
  | cons a t =>
    simp only [List.cons_append, getline]
    rw [show a :: (t ++ '\n' :: r) = (a :: t) ++ '\n' :: r from rfl,
      takeWhile_append_stop (a :: t) '\n' r (fun x hx => by simp [hl x hx]) (by simp),
      dropWhile_append_stop (a :: t) '\n' r (fun x hx => by simp [hl x hx]) (by simp)]
    simp

theorem ignoreLine_newline (r : List Char) : ignoreLine ('\n' :: r) = r := by
  simp [ignoreLine, List.dropWhile_cons]

/-! ### Reading back a two-decimal rendering recovers cent-exact amounts -/

theorem div_mod_cast100 (m : ℕ) :
    ((m / 100 : ℕ) : ℚ) + ((m % 100 : ℕ) : ℚ) / 100 = (m : ℚ) / 100 := by
  have hmod : 100 * (m / 100) + m % 100 = m := Nat.div_add_mod m 100
  have hc : ((100 * (m / 100) + m % 100 : ℕ) : ℚ) = (m : ℚ) := by rw [hmod]
  push_cast at hc
  field_simp
  linarith

theorem readQ_fmt2 (pre : List Char) (hpre : ∀ x ∈ pre, isWs x = true)
    (q : ℚ) (hq : isCent q) (r : List Char) :
    readQ (pre ++ (fmt2 q ++ '\n' :: r)) = some (q, '\n' :: r) := by
  have hq' : q = ((⌊q * 100⌋ : ℤ) : ℚ) / 100 := hq
  have hz : q * 100 = ((⌊q * 100⌋ : ℤ) : ℚ) := by
    nth_rewrite 1 [hq']
    rw [div_mul_cancel₀ _ (by norm_num : (100 : ℚ) ≠ 0)]
  have hround : round (q * 100) = ⌊q * 100⌋ := by
    conv_lhs => rw [hz]
    rw [round_intCast]
  set z : ℤ := ⌊q * 100⌋ with hzdef
  set m : ℕ := z.natAbs with hmdef
  set F : List Char := (if m % 100 < 10 then ['0'] else []) ++ natDigs (m % 100)
    with hFdef
  have hFdig : ∀ c ∈ F, c.isDigit = true := by
    intro c hc
    rw [hFdef, List.mem_append] at hc
    rcases hc with hc | hc
    · by_cases h10 : m % 100 < 10
      · rw [if_pos h10, List.mem_singleton] at hc
        subst hc
        decide
      · rw [if_neg h10] at hc
        exact absurd hc (List.not_mem_nil c)
    · exact (natDigs_spec (m % 100)).2.1 c hc
  have hFval : natOfDigits F = m % 100 := by
    by_cases h10 : m % 100 < 10
    · rw [hFdef, if_pos h10, List.singleton_append]
      show natOfDigits (natDigs (m % 100)) + digitVal '0' *
        10 ^ (natDigs (m % 100)).length = m % 100
      rw [(natDigs_spec (m % 100)).2.2, show digitVal '0' = 0 from rfl,
        zero_mul, add_zero]
    · rw [hFdef, if_neg h10, List.nil_append, (natDigs_spec (m % 100)).2.2]
  have hFlen : F.length = 2 := by
    by_cases h10 : m % 100 < 10
    · rw [hFdef, if_pos h10, natDigs_small h10]
      rfl
    · rw [hFdef, if_neg h10, List.nil_append,
        natDigs_two (by omega) (Nat.mod_lt _ (by norm_num))]
      rfl
  obtain ⟨hne, hdig, hval⟩ := natDigs_spec (m / 100)
  obtain ⟨d, t, hdt⟩ := List.exists_cons_of_ne_nil hne
  have hd : d.isDigit = true := hdig d (by rw [hdt]; simp)
  obtain ⟨hd1, hd2, hd3⟩ := digit_ne_marks hd
  set S : List Char := natDigs (m / 100) ++ '.' :: (F ++ '\n' :: r) with hSdef
  have hScons : S = d :: (t ++ '.' :: (F ++ '\n' :: r)) := by
    rw [hSdef, hdt]
    rfl
  have hheadS : S.head? = some d := by rw [hScons]; rfl
  have hds : S.takeWhile Char.isDigit = natDigs (m / 100) := by
    rw [hSdef]
    exact takeWhile_append_stop _ '.' _ hdig (by decide)
  have hr₁ : S.dropWhile Char.isDigit = '.' :: (F ++ '\n' :: r) := by
    rw [hSdef]
    exact dropWhile_append_stop _ '.' _ hdig (by decide)
  have hfs : (F ++ '\n' :: r).takeWhile Char.isDigit = F :=
    takeWhile_append_stop F '\n' r hFdig (by decide)
  have hrest : (F ++ '\n' :: r).dropWhile Char.isDigit = '\n' :: r :=
    dropWhile_append_stop F '\n' r hFdig (by decide)
  have hvne : ¬ ((natDigs (m / 100)).isEmpty = true ∧ F.isEmpty = true) := by
    simp [List.isEmpty_iff, hne]
  have hvalue : (natOfDigits (natDigs (m / 100)) : ℚ) +
      (natOfDigits F : ℚ) / 10 ^ F.length = (m : ℚ) / 100 := by
    rw [hval, hFval, hFlen, show ((10 : ℚ) ^ 2) = 100 from by norm_num]
    exact div_mod_cast100 m
  have hfmt : fmt2 q ++ '\n' :: r = (if z < 0 then ['-'] else []) ++ S := by
    simp only [fmt2]
    rw [hround, ← hmdef, hSdef, hFdef]
    simp [List.append_assoc]
  rw [hfmt]
  by_cases hneg : z < 0
  · rw [if_pos hneg, List.singleton_append]
    have hskip : skipWs (pre ++ '-' :: S) = '-' :: S := by
      rw [skipWs, dropWhile_of_all pre _ hpre, List.dropWhile_cons,
        if_neg (by decide)]
    simp only [readQ, hskip]
    rw [if_pos (show ('-' :: S).head? = some '-' ∨ ('-' :: S).head? = some '+'
      from Or.inl rfl)]
    simp only [List.tail_cons]
    rw [hds, hr₁]
    rw [if_pos (show ('.' :: (F ++ '\n' :: r)).head? = some '.' from rfl),
      if_pos (show ('.' :: (F ++ '\n' :: r)).head? = some '.' from rfl)]
    simp only [List.tail_cons]
    rw [hfs, hrest, if_neg hvne,
      if_pos (show (decide (('-' :: S).head? = some '-')) = true from by simp)]
    simp only [Option.some.injEq, Prod.mk.injEq]
    refine ⟨?_, trivial⟩
    have hmz : (m : ℚ) = -(z : ℚ) := by
      rw [hmdef, Nat.cast_natAbs, abs_of_neg hneg]
      push_cast
      ring
    rw [hvalue, hq', hmz]
    ring
  · rw [if_neg hneg, List.nil_append]
    have hskip : skipWs (pre ++ S) = S := by
      rw [skipWs, dropWhile_of_all pre _ hpre, hScons, List.dropWhile_cons,
        if_neg (by simp [not_isWs_of_isDigit hd])]
    simp only [readQ, hskip]
    rw [if_neg (show ¬ (S.head? = some '-' ∨ S.head? = some '+') from by
      rw [hheadS]; simp [hd1, hd2])]
    rw [hds, hr₁]
    rw [if_pos (show ('.' :: (F ++ '\n' :: r)).head? = some '.' from rfl),
      if_pos (show ('.' :: (F ++ '\n' :: r)).head? = some '.' from rfl)]
    simp only [List.tail_cons]
    rw [hfs, hrest, if_neg hvne,
      if_neg (show ¬ (decide (S.head? = some '-')) = true from by
        rw [hheadS]; simp [hd1])]
    simp only [Option.some.injEq, Prod.mk.injEq]
    refine ⟨?_, trivial⟩
    have hmz : (m : ℚ) = (z : ℚ) := by
      rw [hmdef, Nat.cast_natAbs, abs_of_nonneg (not_lt.mp hneg)]
    rw [hvalue, hq', hmz]

/-! ### Reading back a serialized share block -/

theorem mapSet_append_gt (m : List (String × ℚ)) (k : String) (v : ℚ)
    (h : ∀ p ∈ m, p.1 < k) : mapSet m k v = m ++ [(k, v)] := by
  induction m with
  | nil => rfl
  | cons a t ih =>
    obtain ⟨a1, a2⟩ := a
    have ha : a1 < k := h (a1, a2) (by simp)
    simp only [mapSet]
    rw [if_neg (by exact fun hh => lt_asymm ha hh),
      if_neg (by exact fun hh => lt_irrefl a1 (hh ▸ ha)), List.cons_append]
    exact congrArg (List.cons (a1, a2)) (ih fun p hp => h p (by simp [hp]))

theorem newline_shift (sh : List (String × ℚ)) (next : List Char) :
    '\n' :: ((sh.flatMap fun p => p.1.toList ++ [' '] ++ fmt2 p.2 ++ ['\n']) ++ next) =
      encShifted sh ++ ('\n' :: next) := by
  induction sh generalizing next with
  | nil => simp [encShifted]
  | cons p sh ih =>
    simp only [encShifted, List.flatMap_cons] at ih ⊢
    conv_rhs => rw [List.append_assoc, ← ih]
    simp [List.append_assoc]

theorem encShifted_cons_head (sh : List (String × ℚ)) (r' : List Char) :
    ∃ tl, encShifted sh ++ '\n' :: r' = '\n' :: tl := by
  cases sh with
  | nil => exact ⟨r', by simp [encShifted]⟩
  | cons qp sh' =>
    refine ⟨(qp.1.toList ++ ' ' :: fmt2 qp.2) ++ (encShifted sh' ++ '\n' :: r'), ?_⟩
    simp [encShifted, List.flatMap_cons, List.append_assoc]

theorem readShares_exact : ∀ (sh acc : List (String × ℚ)) (r' : List Char),
    (∀ p ∈ sh, validName p.1 ∧ isCent p.2) →
    MapSorted (acc ++ sh) →
    readShares sh.length (encShifted sh ++ '\n' :: r') acc =
      .ok (acc ++ sh, '\n' :: r') := by
  intro sh
  induction sh with
  | nil =>
    intro acc r' _ _
    simp [encShifted, readShares]
  | cons p sh ih =>
    intro acc r' hcent hsorted
    obtain ⟨hname, hc2⟩ := hcent p (by simp)
    obtain ⟨hn1, hn2⟩ := hname
    have hstream : encShifted (p :: sh) ++ '\n' :: r' =
        ['\n'] ++ (p.1.toList ++ ' ' ::
          (fmt2 p.2 ++ (encShifted sh ++ '\n' :: r'))) := by
      simp [encShifted, List.flatMap_cons, List.append_assoc]
    obtain ⟨tl, htl⟩ := encShifted_cons_head sh r'
    have hlt : ∀ x ∈ acc, x.1 < p.1 := fun x hx =>
      (List.pairwise_append.mp hsorted).2.2 x hx p (by simp)
    have hsorted' : MapSorted (acc ++ [p] ++ sh) := by
      rw [List.append_assoc, List.singleton_append]
      exact hsorted
    rw [hstream, List.length_cons]
    show readShares (sh.length + 1) _ acc = _
    simp only [readShares,
      readTok_exact ['\n'] (by decide) p.1.toList hn1 hn2 ' ' (by decide) _]
    rw [show ' ' :: (fmt2 p.2 ++ (encShifted sh ++ '\n' :: r')) =
      [' '] ++ (fmt2 p.2 ++ (encShifted sh ++ '\n' :: r')) from rfl, htl]
    simp only [readQ_fmt2 [' '] (by decide) p.2 hc2 tl]
    rw [mk_toList, mapSet_append_gt acc p.1 p.2 hlt, ← htl,
      show ((p.1, p.2) : String × ℚ) = p from rfl]
    rw [ih (acc ++ [p]) r' (fun x hx => hcent x (by simp [hx])) hsorted']
    rw [List.append_assoc, List.singleton_append]

/-! ### Reading back the serialized user block -/

theorem encodeUsers_len (us : List String) :
    us.length ≤ (encodeUsers us).length := by
  induction us with
  | nil => simp [encodeUsers]
  | cons u us ih =>
    simp only [encodeUsers, List.flatMap_cons, List.length_append,
      List.length_cons] at ih ⊢
    omega

theorem readUsers_exact : ∀ (us : List String) (fuel : ℕ) (acc : List String)
    (r : List Char), (∀ u ∈ us, validName u) → (acc ++ us).Nodup →
    us.length ≤ fuel →
    readUsers fuel us.length (encodeUsers us ++ r) acc = some (acc ++ us, r) := by
  intro us
  induction us with
  | nil =>
    intro fuel acc r _ _ _
    simp [encodeUsers, readUsers]
  | cons u us ih =>
    intro fuel acc r hvn hnd hfuel
    obtain ⟨f, rfl⟩ : ∃ f, fuel = f + 1 :=
      ⟨fuel - 1, by simp only [List.length_cons] at hfuel; omega⟩
    obtain ⟨hu1, hu2⟩ := hvn u (by simp)
    have hnonl : ∀ x ∈ u.toList, ¬ x = '\n' := fun x hx heq => by
      subst heq
      exact absurd (hu2 '\n' hx) (by decide)
    have hune : ¬ u = "" := fun heq => hu1 (by rw [heq]; rfl)
    have hmem : u ∉ acc := fun hmemu =>
      (List.nodup_append.mp hnd).2.2 hmemu (by simp)
    have hstream : encodeUsers (u :: us) ++ r =
        u.toList ++ '\n' :: (encodeUsers us ++ r) := by
      simp [encodeUsers, List.flatMap_cons, List.append_assoc]
    rw [hstream, List.length_cons]
    show readUsers (f + 1) (us.length + 1) _ acc = _
    simp only [readUsers,
      getline_exact u.toList hnonl (encodeUsers us ++ r), mk_toList]
    rw [if_neg hune, if_neg (by simpa using hmem)]
    rw [ih f (acc ++ [u]) r (fun x hx => hvn x (by simp [hx]))
      (by simpa [List.append_assoc] using hnd)
      (by simp only [List.length_cons] at hfuel; omega)]
    rw [List.append_assoc, List.singleton_append]

/-! ### Reading back a serialized expense block -/

theorem readTok_exact_cons (w : Char) (hw : isWs w = true) (tok : List Char)
    (hne : tok ≠ []) (htok : ∀ x ∈ tok, isWs x = false) (c : Char)
    (hc : isWs c = true) (r : List Char) :
    readTok (w :: (tok ++ c :: r)) = some (String.mk tok, c :: r) :=
  readTok_exact [w] (by simp [hw]) tok hne htok c hc r

theorem readNat_exact_cons (w : Char) (hw : isWs w = true) (n : ℕ) (c : Char)
    (hc : c.isDigit = false) (r : List Char) :
    readNat (w :: (natDigs n ++ c :: r)) = some (n, c :: r) :=
  readNat_exact [w] (by simp [hw]) n c hc r

theorem readQ_fmt2_cons (w : Char) (hw : isWs w = true) (q : ℚ) (hq : isCent q)
    (r : List Char) : readQ (w :: (fmt2 q ++ '\n' :: r)) = some (q, '\n' :: r) :=
  readQ_fmt2 [w] (by simp [hw]) q hq r

theorem readExpenses_exact : ∀ (es : List Expense) (pre : List Char)
    (acc : List Expense) (r : List Char), (∀ x ∈ pre, isWs x = true) →
    (∀ e ∈ es, validName e.payer ∧ isCent e.amount ∧ MapSorted e.shares ∧
      ∀ q ∈ e.shares, validName q.1 ∧ isCent q.2) →
    ∃ s', readExpenses es.length (pre ++ (es.flatMap encodeExpense ++ r)) acc =
      (acc ++ es, none, s') := by
  intro es
  induction es with
  | nil =>
    intro pre acc r _ _
    exact ⟨pre ++ r, by simp [readExpenses]⟩
  | cons e es ih =>
    intro pre acc r hpre hsv
    obtain ⟨hpv, hcent, hsort, hshv⟩ := hsv e (by simp)
    obtain ⟨hp1, hp2⟩ := hpv
    have hstream : pre ++ ((e :: es).flatMap encodeExpense ++ r) =
        pre ++ ("PAYER".toList ++ ' ' :: (e.payer.toList ++ ' ' ::
          ("AMT".toList ++ ' ' :: (fmt2 e.amount ++ '\n' ::
            ("SHARES".toList ++ ' ' :: (natDigs e.shares.length ++ '\n' ::
              ((e.shares.flatMap fun p => p.1.toList ++ [' '] ++ fmt2 p.2 ++ ['\n']) ++
                (es.flatMap encodeExpense ++ r)))))))) := by
      have hP : ("PAYER ".toList : List Char) = ['P', 'A', 'Y', 'E', 'R', ' '] := rfl
      have hA : (" AMT ".toList : List Char) = [' ', 'A', 'M', 'T', ' '] := rfl
      have hS : ("SHARES ".toList : List Char) = ['S', 'H', 'A', 'R', 'E', 'S', ' '] := rfl
      have hP' : ("PAYER".toList : List Char) = ['P', 'A', 'Y', 'E', 'R'] := rfl
      have hA' : ("AMT".toList : List Char) = ['A', 'M', 'T'] := rfl
      have hS' : ("SHARES".toList : List Char) = ['S', 'H', 'A', 'R', 'E', 'S'] := rfl
      simp [encodeExpense, List.flatMap_cons, hP, hA, hS, hP', hA', hS',
        List.append_assoc]
    have hstep : readExpenses (es.length + 1)
        (pre ++ ("PAYER".toList ++ ' ' :: (e.payer.toList ++ ' ' ::
          ("AMT".toList ++ ' ' :: (fmt2 e.amount ++ '\n' ::
            ("SHARES".toList ++ ' ' :: (natDigs e.shares.length ++ '\n' ::
              ((e.shares.flatMap fun p => p.1.toList ++ [' '] ++ fmt2 p.2 ++ ['\n']) ++
                (es.flatMap encodeExpense ++ r)))))))))
        acc =
        readExpenses es.length ('\n' :: (es.flatMap encodeExpense ++ r))
          (acc ++ [e]) := by
      simp only [readExpenses,
        readTok_exact pre hpre "PAYER".toList (by decide) (by decide) ' '
          (by decide) _,
        mk_toList,
        readTok_exact_cons ' ' (by decide) e.payer.toList hp1 hp2 ' '
          (by decide) _,
        readTok_exact_cons ' ' (by decide) "AMT".toList (by decide) (by decide)
          ' ' (by decide) _,
        readQ_fmt2_cons ' ' (by decide) e.amount hcent _,
        readTok_exact_cons '\n' (by decide) "SHARES".toList (by decide)
          (by decide) ' ' (by decide) _,
        readNat_exact_cons ' ' (by decide) e.shares.length '\n' (by decide) _]
      rw [newline_shift e.shares (es.flatMap encodeExpense ++ r)]
      simp only [readShares_exact e.shares [] (es.flatMap encodeExpense ++ r)
        hshv hsort, List.nil_append]
      rw [if_neg (by simp), if_neg (by simp)]
    obtain ⟨s', hs'⟩ := ih ['\n'] (acc ++ [e]) r (by decide)
      (fun x hx => hsv x (by simp [hx]))
    refine ⟨s', ?_⟩
    rw [hstream, List.length_cons, hstep,
      show acc ++ e :: es = (acc ++ [e]) ++ es by simp]
    exact hs'

/-! ### The save text parses back to exactly the saved book -/

theorem readTok_exact_nil (tok : List Char) (hne : tok ≠ [])
    (htok : ∀ x ∈ tok, isWs x = false) (c : Char) (hc : isWs c = true)
    (r : List Char) : readTok (tok ++ c :: r) = some (String.mk tok, c :: r) :=
  readTok_exact [] (by simp) tok hne htok c hc r

theorem load_save (b₀ b : Book) (h : BookSavable b) :
    load b₀ (save b) = .done b none := by
  obtain ⟨hnd, hvn, hsv⟩ := h
  have hstream : save b = "USERS".toList ++ ' ' ::
      (natDigs b.users.length ++ '\n' :: (encodeUsers b.users ++
        ("EXPENSES".toList ++ ' ' :: (natDigs b.expenses.length ++ '\n' ::
          b.expenses.flatMap encodeExpense)))) := by
    have hU : ("USERS ".toList : List Char) = ['U', 'S', 'E', 'R', 'S', ' '] := rfl
    have hU' : ("USERS".toList : List Char) = ['U', 'S', 'E', 'R', 'S'] := rfl
    have hE : ("EXPENSES ".toList : List Char) =
      ['E', 'X', 'P', 'E', 'N', 'S', 'E', 'S', ' '] := rfl
    have hE' : ("EXPENSES".toList : List Char) =
      ['E', 'X', 'P', 'E', 'N', 'S', 'E', 'S'] := rfl
    simp [save, hU, hU', hE, hE', List.append_assoc]
  obtain ⟨s', hes⟩ := readExpenses_exact b.expenses ['\n'] [] [] (by decide) hsv
  rw [List.append_nil] at hes
  have hfuel : b.users.length ≤ ('\n' :: (encodeUsers b.users ++
      ("EXPENSES".toList ++ ' ' :: (natDigs b.expenses.length ++ '\n' ::
        b.expenses.flatMap encodeExpense)))).length + 1 := by
    have := encodeUsers_len b.users
    simp only [List.length_cons, List.length_append]
    omega
  rw [hstream]
  simp only [load,
    readTok_exact_nil "USERS".toList (by decide) (by decide) ' ' (by decide) _,
    mk_toList,
    readNat_exact_cons ' ' (by decide) b.users.length '\n' (by decide) _]
  rw [ignoreLine_newline, readUsers_exact b.users _ [] _ hvn hnd hfuel]
  simp only [List.nil_append,
    readTok_exact_nil "EXPENSES".toList (by decide) (by decide) ' '
      (by decide) _,
    mk_toList,
    readNat_exact_cons ' ' (by decide) b.expenses.length '\n' (by decide) _]
  rw [show ('\n' :: b.expenses.flatMap encodeExpense) =
    ['\n'] ++ b.expenses.flatMap encodeExpense from rfl, hes]
  simp only [List.nil_append]
  rw [if_neg (by simp), if_neg (by simp)]

/-- C4 counterexample: the ledger where A pays 10 split equally among A, B
and C has shares 10/3, which serialize as 3.33; loading the saved text
yields a book whose net balances differ from the original, so the
round-trip claim fails for general ledgers. -/
theorem C4_counterexample_two_decimal_loss :
    load ⟨[], []⟩ (save bThirds) = .done bThirdsLoaded none ∧
      computeNet bThirdsLoaded ≠ computeNet bThirds := by
  with_unfolding_all decide

/-- C4 (amended): for books whose user and share names are non-empty and
whitespace-free, whose user list is duplicate-free, whose share maps are
key-sorted, and whose amounts and shares are exact multiples of 0.01,
saving and loading into any store reproduces the book exactly, hence
computeNet is identical before and after.  For general ledgers the claim
fails: the two-decimal serialization truncates shares such as 10/3 (see
the counterexample). -/
theorem C4_save_load_roundtrip (b₀ b : Book) (h : BookSavable b) :
    ∃ b', load b₀ (save b) = .done b' none ∧ computeNet b' = computeNet b :=
  ⟨b, load_save b₀ b h, rfl⟩

/-- C4 witness: the savable two-user ledger with a single 10.00 expense
round-trips through save and load into a fresh store. -/
theorem C4_save_load_roundtrip_witness :
    ∃ b', load ⟨[], []⟩ (save bEq10) = .done b' none ∧
      computeNet b' = computeNet bEq10 :=
  C4_save_load_roundtrip ⟨[], []⟩ bEq10 (by with_unfolding_all decide)

end AccountBalancing
